import Mathlib
set_option maxRecDepth 4000
/-!
Shallow embedding of `chain/x/peggy/types/types.pb.go` (gogo-protobuf generated
codec for `BridgeValidator`, `Valset`, `GenericClaim`).

Conventions of the embedding:
* Go byte buffers are `List Nat` (each entry a byte value); Go `uint64`
  arithmetic is `Nat` with explicit `% 2 ^ 64` where the Go code can overflow,
  Go `int32` bit patterns are `Nat` values `< 2 ^ 32` converted to `Int` with
  `toInt32`, Go strings and `[]byte` payloads are `List Nat`.
* A Go `[]byte` field that distinguishes `nil` from an empty slice is
  `Option (List Nat)` (`none` = Go `nil`).
* The `Unmarshal` methods mutate their receiver and return an error; here they
  take the receiver and return the final receiver state together with
  `Option DecodeError` (`none` = Go `nil` error), so a caller observes both the
  error and the partially assigned record, exactly as in Go.
* Loops are encoded by structural recursion on a fuel argument.  The fuel is
  always `buffer length + 1` (for varints, `11`: the `shift >= 64` guard stops
  after at most 10 payload bytes), and every loop iteration consumes at least
  one input byte, so the dedicated `DecodeError.outOfFuel` value is never
  produced; no theorem below mentions it, and a theorem concluding any other
  outcome therefore describes a path genuinely taken by the Go code.
-/

/-- Error outcomes of the decoder, mirroring the error values of the Go file:
`ErrIntOverflowTypes`, `io.ErrUnexpectedEOF`, `ErrInvalidLengthTypes`,
`ErrUnexpectedEndOfGroupTypes`, and the three `fmt.Errorf` families
(illegal wireType, "wiretype end group for non-group", "illegal tag",
"wrong wireType ... for field ...").  `outOfFuel` is an artifact of the fuel
encoding and is unreachable (see module docstring). -/
inductive DecodeError where
  | outOfFuel
  | intOverflow
  | unexpectedEOF
  | invalidLength
  | unexpectedEndOfGroup
  | illegalWireType (wireType : Nat)
  | endGroupForNonGroup (msgName : String)
  | illegalTag (msgName : String)
  | wrongWireType (fieldName : String) (wireType : Nat)
deriving DecidableEq, Repr

deriving instance DecidableEq for Except

/-- The varint-reading loop that the generated Go code inlines at every call
site (`for shift := uint(0); ; shift += 7 { ... }`): checks `shift >= 64`
(`ErrIntOverflowTypes`), then buffer exhaustion (`io.ErrUnexpectedEOF`), then
accumulates `x |= T(b&0x7F) << shift` for the destination's machine type `T`,
whose width enters as the modulus `md` (`2^64` for `uint64`/`int`, `2^32` for
`int32`).  Returns the accumulator as it stands (Go leaves it in the
destination variable even on error) plus the new index on success. -/
def readVarintLoop (md : Nat) (buf : List Nat) :
    Nat → Nat → Nat → Nat → Nat × Except DecodeError Nat
  | 0, _, _, acc => (acc, .error .outOfFuel)
  | fuel + 1, i, shift, acc =>
    if 64 ≤ shift then (acc, .error .intOverflow)
    else if i < buf.length then
      let b := buf.getD i 0
      let acc2 := acc ||| (((b % 128) <<< shift) % md)
      if b < 128 then (acc2, .ok (i + 1))
      else readVarintLoop md buf fuel (i + 1) (shift + 7) acc2
    else (acc, .error .unexpectedEOF)

/-- One inlined varint read starting at index `i` (initial `shift = 0`,
accumulator `0`).  Fuel `11` never runs out: the 11th iteration has
`shift = 70 ≥ 64` and stops with `intOverflow` first. -/
def readVarint (md : Nat) (buf : List Nat) (i : Nat) : Nat × Except DecodeError Nat :=
  readVarintLoop md buf 11 i 0 0

/-- The value-discarding varint skip of `skipTypes` (its `case 0`):
same guards as `readVarintLoop`, no accumulator. -/
def skipVarintLoop (buf : List Nat) : Nat → Nat → Nat → Except DecodeError Nat
  | 0, _, _ => .error .outOfFuel
  | fuel + 1, i, shift =>
    if 64 ≤ shift then .error .intOverflow
    else if i < buf.length then
      if buf.getD i 0 < 128 then .ok (i + 1)
      else skipVarintLoop buf fuel (i + 1) (shift + 7)
    else .error .unexpectedEOF

def skipVarint (buf : List Nat) (i : Nat) : Except DecodeError Nat :=
  skipVarintLoop buf 11 i 0

/-- The loop body of `skipTypes`: reads a tag, dispatches on the wire type
(0 varint, 1 eight bytes, 2 length-delimited, 3 group start / depth++,
4 group end / depth--, 5 four bytes, else illegal), then performs the shared
tail of each iteration: the `iNdEx < 0` signed-overflow check (an `int64` is
negative exactly when its bit pattern is `≥ 2^63`), the `depth == 0` exit, and
the next iteration.  Falling out of the loop (`iNdEx ≥ l` with open groups or
on the first iteration) returns `io.ErrUnexpectedEOF`. -/
def skipTypesLoop (buf : List Nat) : Nat → Nat → Nat → Except DecodeError Nat
  | 0, _, _ => .error .outOfFuel
  | fuel + 1, iNdEx, depth =>
    if iNdEx < buf.length then
      let cont : Nat → Nat → Except DecodeError Nat := fun i2 depth2 =>
        if 2 ^ 63 ≤ i2 then .error .invalidLength
        else if depth2 = 0 then .ok i2
        else skipTypesLoop buf fuel i2 depth2
      match readVarint (2 ^ 64) buf iNdEx with
      | (_, .error e) => .error e
      | (wire, .ok i1) =>
        match wire % 8 with
        | 0 =>
          match skipVarint buf i1 with
          | .error e => .error e
          | .ok i2 => cont i2 depth
        | 1 => cont (i1 + 8) depth
        | 2 =>
          match readVarint (2 ^ 64) buf i1 with
          | (_, .error e) => .error e
          | (length, .ok i2) =>
            if 2 ^ 63 ≤ length then .error .invalidLength
            else cont (i2 + length) depth
        | 3 => cont i1 (depth + 1)
        | 4 =>
          if depth = 0 then .error .unexpectedEndOfGroup
          else cont i1 (depth - 1)
        | 5 => cont (i1 + 4) depth
        | w => .error (.illegalWireType w)
    else .error .unexpectedEOF

/-- `skipTypes(dAtA []byte) (n int, err error)`: forward-skips one complete
field (including any group structure) at the start of `dAtA` and returns the
number of bytes it spans. -/
def skipTypes (dAtA : List Nat) : Except DecodeError Nat :=
  skipTypesLoop dAtA (dAtA.length + 1) 0 0

/-- The length-delimited preamble that the generated code repeats for every
string / bytes / embedded-message field: read the length varint (into a Go
`int` or `uint64`, both accumulate mod `2^64`), reject lengths whose `int64`
reading is negative (`ErrInvalidLengthTypes`), compute
`postIndex := iNdEx + length`, reject a negative (overflowed) `postIndex`,
reject `postIndex > l` (`io.ErrUnexpectedEOF`).  Returns
`(payload start, postIndex)`. -/
def readLengthDelim (buf : List Nat) (i : Nat) : Except DecodeError (Nat × Nat) :=
  match readVarint (2 ^ 64) buf i with
  | (_, .error e) => .error e
  | (len, .ok i2) =>
    if 2 ^ 63 ≤ len then .error .invalidLength
    else if 2 ^ 63 ≤ i2 + len then .error .invalidLength
    else if buf.length < i2 + len then .error .unexpectedEOF
    else .ok (i2, i2 + len)

/-- `BridgeValidator`: `Power uint64`, `EthereumAddress string`. -/
structure BridgeValidator where
  Power : Nat
  EthereumAddress : List Nat
deriving DecidableEq, Repr

/-- `Valset`: `Nonce uint64`, `Members []*BridgeValidator`, `Height uint64`. -/
structure Valset where
  Nonce : Nat
  Members : List BridgeValidator
  Height : Nat
deriving DecidableEq, Repr

/-- The value of a Go `int32` with bit pattern `p < 2^32`. -/
def toInt32 (p : Nat) : Int :=
  if p < 2 ^ 31 then (p : Int) else (p : Int) - 2 ^ 32

/-- `GenericClaim`: `EventNonce uint64`, `ClaimType int32` (held as its
signed value), `Hash []byte` (`none` = Go `nil`), `EventClaimer string`. -/
structure GenericClaim where
  EventNonce : Nat
  ClaimType : Int
  Hash : Option (List Nat)
  EventClaimer : List Nat
deriving DecidableEq, Repr

/-- Go `append(old[:0], xs...)` as used on `m.Hash`: the result is `nil` only
when `old` is `nil` and `xs` is empty (appending nothing to a nil slice
yields nil; a non-nil slice keeps its backing array and stays non-nil). -/
def appendResliced (old : Option (List Nat)) (xs : List Nat) : Option (List Nat) :=
  match old with
  | none => if xs = [] then none else some xs
  | some _ => some xs

/-- `func (m *BridgeValidator) Unmarshal(dAtA []byte) error`, one loop
iteration per fuel unit.  Reads the tag varint, rejects wire type 4
("wiretype end group for non-group") and non-positive field numbers
("illegal tag"; `int32(wire >> 3) <= 0` means the 32-bit pattern is `0` or
has its sign bit set), then dispatches: field 1 `Power` (wire type 0), field 2
`EthereumAddress` (wire type 2), default `skipTypes`. -/
def bvUnmarshalLoop (buf : List Nat) :
    Nat → Nat → BridgeValidator → BridgeValidator × Option DecodeError
  | 0, _, m => (m, some .outOfFuel)
  | fuel + 1, iNdEx, m =>
    if iNdEx < buf.length then
      match readVarint (2 ^ 64) buf iNdEx with
      | (_, .error e) => (m, some e)
      | (wire, .ok i1) =>
        let fieldNum := (wire >>> 3) % 2 ^ 32
        let wireType := wire % 8
        if wireType = 4 then (m, some (.endGroupForNonGroup "BridgeValidator"))
        else if fieldNum = 0 ∨ 2 ^ 31 ≤ fieldNum then (m, some (.illegalTag "BridgeValidator"))
        else if fieldNum = 1 then
          if wireType ≠ 0 then (m, some (.wrongWireType "Power" wireType))
          else
            match readVarint (2 ^ 64) buf i1 with
            | (v, .error e) => ({ m with Power := v }, some e)
            | (v, .ok i2) => bvUnmarshalLoop buf fuel i2 { m with Power := v }
        else if fieldNum = 2 then
          if wireType ≠ 2 then (m, some (.wrongWireType "EthereumAddress" wireType))
          else
            match readLengthDelim buf i1 with
            | .error e => (m, some e)
            | .ok (st, postIndex) =>
              bvUnmarshalLoop buf fuel postIndex
                { m with EthereumAddress := (buf.drop st).take (postIndex - st) }
        else
          match skipTypes (buf.drop iNdEx) with
          | .error e => (m, some e)
          | .ok skippy =>
            if 2 ^ 63 ≤ iNdEx + skippy then (m, some .invalidLength)
            else if buf.length < iNdEx + skippy then (m, some .unexpectedEOF)
            else bvUnmarshalLoop buf fuel (iNdEx + skippy) m
    else if buf.length < iNdEx then (m, some .unexpectedEOF)
    else (m, none)

def BridgeValidator.Unmarshal (m : BridgeValidator) (dAtA : List Nat) :
    BridgeValidator × Option DecodeError :=
  bvUnmarshalLoop dAtA (dAtA.length + 1) 0 m

/-- Decoding into a fresh (zero-valued) receiver, as `XXX_Unmarshal` clients do. -/
def BridgeValidator.decode (dAtA : List Nat) : BridgeValidator × Option DecodeError :=
  BridgeValidator.Unmarshal ⟨0, []⟩ dAtA

/-- `func (m *Valset) Unmarshal(dAtA []byte) error`.  Field 1 `Nonce`
(wire type 0), field 2 `Members` (wire type 2: append a fresh
`&BridgeValidator{}` and unmarshal the delimited slice into it — on a nested
error the partially decoded member stays appended), field 3 `Height`
(wire type 0), default `skipTypes`. -/
def valsetUnmarshalLoop (buf : List Nat) :
    Nat → Nat → Valset → Valset × Option DecodeError
  | 0, _, m => (m, some .outOfFuel)
  | fuel + 1, iNdEx, m =>
    if iNdEx < buf.length then
      match readVarint (2 ^ 64) buf iNdEx with
      | (_, .error e) => (m, some e)
      | (wire, .ok i1) =>
        let fieldNum := (wire >>> 3) % 2 ^ 32
        let wireType := wire % 8
        if wireType = 4 then (m, some (.endGroupForNonGroup "Valset"))
        else if fieldNum = 0 ∨ 2 ^ 31 ≤ fieldNum then (m, some (.illegalTag "Valset"))
        else if fieldNum = 1 then
          if wireType ≠ 0 then (m, some (.wrongWireType "Nonce" wireType))
          else
            match readVarint (2 ^ 64) buf i1 with
            | (v, .error e) => ({ m with Nonce := v }, some e)
            | (v, .ok i2) => valsetUnmarshalLoop buf fuel i2 { m with Nonce := v }
        else if fieldNum = 2 then
          if wireType ≠ 2 then (m, some (.wrongWireType "Members" wireType))
          else
            match readLengthDelim buf i1 with
            | .error e => (m, some e)
            | .ok (st, postIndex) =>
              match BridgeValidator.Unmarshal ⟨0, []⟩ ((buf.drop st).take (postIndex - st)) with
              | (child, some e) => ({ m with Members := m.Members ++ [child] }, some e)
              | (child, none) =>
                valsetUnmarshalLoop buf fuel postIndex
                  { m with Members := m.Members ++ [child] }
        else if fieldNum = 3 then
          if wireType ≠ 0 then (m, some (.wrongWireType "Height" wireType))
          else
            match readVarint (2 ^ 64) buf i1 with
            | (v, .error e) => ({ m with Height := v }, some e)
            | (v, .ok i2) => valsetUnmarshalLoop buf fuel i2 { m with Height := v }
        else
          match skipTypes (buf.drop iNdEx) with
          | .error e => (m, some e)
          | .ok skippy =>
            if 2 ^ 63 ≤ iNdEx + skippy then (m, some .invalidLength)
            else if buf.length < iNdEx + skippy then (m, some .unexpectedEOF)
            else valsetUnmarshalLoop buf fuel (iNdEx + skippy) m
    else if buf.length < iNdEx then (m, some .unexpectedEOF)
    else (m, none)

def Valset.Unmarshal (m : Valset) (dAtA : List Nat) : Valset × Option DecodeError :=
  valsetUnmarshalLoop dAtA (dAtA.length + 1) 0 m

def Valset.decode (dAtA : List Nat) : Valset × Option DecodeError :=
  Valset.Unmarshal ⟨0, [], 0⟩ dAtA

/-- `func (m *GenericClaim) Unmarshal(dAtA []byte) error`.  Field 1
`EventNonce` (wire type 0), field 2 `ClaimType` (wire type 0, accumulated in
an `int32`, hence modulus `2^32`), field 3 `Hash` (wire type 2, with the
`append(m.Hash[:0], ...)` re-slice and the `nil → []byte{}` substitution),
field 4 `EventClaimer` (wire type 2), default `skipTypes`. -/
def gcUnmarshalLoop (buf : List Nat) :
    Nat → Nat → GenericClaim → GenericClaim × Option DecodeError
  | 0, _, m => (m, some .outOfFuel)
  | fuel + 1, iNdEx, m =>
    if iNdEx < buf.length then
      match readVarint (2 ^ 64) buf iNdEx with
      | (_, .error e) => (m, some e)
      | (wire, .ok i1) =>
        let fieldNum := (wire >>> 3) % 2 ^ 32
        let wireType := wire % 8
        if wireType = 4 then (m, some (.endGroupForNonGroup "GenericClaim"))
        else if fieldNum = 0 ∨ 2 ^ 31 ≤ fieldNum then (m, some (.illegalTag "GenericClaim"))
        else if fieldNum = 1 then
          if wireType ≠ 0 then (m, some (.wrongWireType "EventNonce" wireType))
          else
            match readVarint (2 ^ 64) buf i1 with
            | (v, .error e) => ({ m with EventNonce := v }, some e)
            | (v, .ok i2) => gcUnmarshalLoop buf fuel i2 { m with EventNonce := v }
        else if fieldNum = 2 then
          if wireType ≠ 0 then (m, some (.wrongWireType "ClaimType" wireType))
          else
            match readVarint (2 ^ 32) buf i1 with
            | (v, .error e) => ({ m with ClaimType := toInt32 v }, some e)
            | (v, .ok i2) => gcUnmarshalLoop buf fuel i2 { m with ClaimType := toInt32 v }
        else if fieldNum = 3 then
          if wireType ≠ 2 then (m, some (.wrongWireType "Hash" wireType))
          else
            match readLengthDelim buf i1 with
            | .error e => (m, some e)
            | .ok (st, postIndex) =>
              let h := appendResliced m.Hash ((buf.drop st).take (postIndex - st))
              let h := if h = none then some [] else h
              gcUnmarshalLoop buf fuel postIndex { m with Hash := h }
        else if fieldNum = 4 then
          if wireType ≠ 2 then (m, some (.wrongWireType "EventClaimer" wireType))
          else
            match readLengthDelim buf i1 with
            | .error e => (m, some e)
            | .ok (st, postIndex) =>
              gcUnmarshalLoop buf fuel postIndex
                { m with EventClaimer := (buf.drop st).take (postIndex - st) }
        else
          match skipTypes (buf.drop iNdEx) with
          | .error e => (m, some e)
          | .ok skippy =>
            if 2 ^ 63 ≤ iNdEx + skippy then (m, some .invalidLength)
            else if buf.length < iNdEx + skippy then (m, some .unexpectedEOF)
            else gcUnmarshalLoop buf fuel (iNdEx + skippy) m
    else if buf.length < iNdEx then (m, some .unexpectedEOF)
    else (m, none)

def GenericClaim.Unmarshal (m : GenericClaim) (dAtA : List Nat) :
    GenericClaim × Option DecodeError :=
  gcUnmarshalLoop dAtA (dAtA.length + 1) 0 m

def GenericClaim.decode (dAtA : List Nat) : GenericClaim × Option DecodeError :=
  GenericClaim.Unmarshal ⟨0, 0, none, []⟩ dAtA

/-- `math_bits.Len64` (number of bits of a `uint64`), with fuel 64 — exact for
every `x < 2^64`. -/
def len64 : Nat → Nat → Nat
  | 0, _ => 0
  | fuel + 1, x => if x = 0 then 0 else len64 fuel (x / 2) + 1

/-- `func sovTypes(x uint64) (n int) { return (math_bits.Len64(x|1) + 6) / 7 }`. -/
def sovTypes (x : Nat) : Nat :=
  (len64 64 (x ||| 1) + 6) / 7

/-- The byte sequence `encodeVarintTypes(dAtA, offset, v)` writes (it places
these `sovTypes v` bytes ending just before `offset`): little-endian base-128
groups, continuation bit `0x80` on all but the last byte.  Fuel 10 is exact
for `v < 2^64`. -/
def varintBytes : Nat → Nat → List Nat
  | 0, v => [v]
  | fuel + 1, v => if v < 128 then [v] else (v % 128 + 128) :: varintBytes fuel (v / 128)

def encodeVarintTypes (v : Nat) : List Nat :=
  varintBytes 10 v

/-- `func (m *BridgeValidator) MarshalToSizedBuffer(dAtA []byte) (int, error)`.
The Go code fills the buffer back to front (`EthereumAddress` block first,
then the `Power` block before it); this is the resulting buffer front to
back: the `Power` field (tag `0x8`) then the `EthereumAddress` field
(tag `0x12`), each present only when non-zero / non-empty. -/
def BridgeValidator.Marshal (m : BridgeValidator) : List Nat :=
  (if m.Power ≠ 0 then 8 :: encodeVarintTypes m.Power else [])
    ++ (if 0 < m.EthereumAddress.length then
          18 :: (encodeVarintTypes m.EthereumAddress.length ++ m.EthereumAddress)
        else [])

/-- `func (m *Valset) MarshalToSizedBuffer(dAtA []byte) (int, error)`, front to
back: `Nonce` (tag `0x8`), then one block per member in slice order — tag
`0x12`, the member's written size as a varint, the member's own marshalled
bytes — then `Height` (tag `0x18`). -/
def Valset.Marshal (m : Valset) : List Nat :=
  (if m.Nonce ≠ 0 then 8 :: encodeVarintTypes m.Nonce else [])
    ++ m.Members.foldr
        (fun e acc => (18 :: (encodeVarintTypes e.Marshal.length ++ e.Marshal)) ++ acc) []
    ++ (if m.Height ≠ 0 then 24 :: encodeVarintTypes m.Height else [])

/-- `uint64(m.ClaimType)`: the Go conversion `int32 → uint64` sign-extends, so
the written value is the 64-bit two's-complement pattern of `c`. -/
def claimTypeBits (c : Int) : Nat :=
  (c % (2 ^ 64 : Int)).toNat

/-- `func (m *GenericClaim) MarshalToSizedBuffer(dAtA []byte) (int, error)`,
front to back: `EventNonce` (tag `0x8`), `ClaimType` (tag `0x10`, varint of
`uint64(m.ClaimType)`), `Hash` (tag `0x1a`, written only when
`len(m.Hash) > 0` — `len(nil) = 0`), `EventClaimer` (tag `0x22`). -/
def GenericClaim.Marshal (m : GenericClaim) : List Nat :=
  (if m.EventNonce ≠ 0 then 8 :: encodeVarintTypes m.EventNonce else [])
    ++ (if m.ClaimType ≠ 0 then 16 :: encodeVarintTypes (claimTypeBits m.ClaimType) else [])
    ++ (match m.Hash with
        | none => []
        | some bs =>
          if 0 < bs.length then 26 :: (encodeVarintTypes bs.length ++ bs) else [])
    ++ (if 0 < m.EventClaimer.length then
          34 :: (encodeVarintTypes m.EventClaimer.length ++ m.EventClaimer)
        else [])

/-- A `BridgeValidator` representable in Go: `Power` fits a `uint64` and the
address is short enough that every index arithmetic below stays far from the
`int64` sign bit. -/
abbrev BridgeValidator.WF (m : BridgeValidator) : Prop :=
  m.Power < 2 ^ 64 ∧ m.EthereumAddress.length < 2 ^ 62 ∧ m.Marshal.length < 2 ^ 63

abbrev Valset.WF (m : Valset) : Prop :=
  m.Nonce < 2 ^ 64 ∧ m.Height < 2 ^ 64 ∧ (∀ e ∈ m.Members, e.WF) ∧
    m.Marshal.length < 2 ^ 63

abbrev GenericClaim.WF (m : GenericClaim) : Prop :=
  m.EventNonce < 2 ^ 64 ∧ (-(2 ^ 31) : Int) ≤ m.ClaimType ∧ m.ClaimType < 2 ^ 31 ∧
    (match m.Hash with | none => True | some bs => bs.length < 2 ^ 62) ∧
    m.EventClaimer.length < 2 ^ 62 ∧ m.Marshal.length < 2 ^ 63

def catList (ls : List (List Nat)) : List Nat := ls.foldr (· ++ ·) []

/-- A decoding loop consumes the byte segment `seg` in one iteration and
transforms its record by `f`. -/
def SegOK {α : Type} (loop : List Nat → Nat → Nat → α → α × Option DecodeError)
    (seg : List Nat) (f : α → α) : Prop :=
  ∀ buf i fuel m rest, buf.drop i = seg ++ rest → buf.length < 2 ^ 63 →
    loop buf (fuel + 1) i m = loop buf fuel (i + seg.length) (f m)

/-- A decoding loop hits `unexpectedEOF` when its buffer ends strictly inside
the byte segment `seg`. -/
def SegTrunc {α : Type} (loop : List Nat → Nat → Nat → α → α × Option DecodeError)
    (seg : List Nat) : Prop :=
  ∀ buf i fuel m t, 0 < t → t < seg.length → buf.drop i = seg.take t →
    buf.length = i + t → i + seg.length < 2 ^ 63 →
    ∃ m2, loop buf (fuel + 1) i m = (m2, some .unexpectedEOF)

/-- A decoding loop returns its record with a `nil` error at the end of the
buffer. -/
def LoopExit {α : Type} (loop : List Nat → Nat → Nat → α → α × Option DecodeError) : Prop :=
  ∀ buf fuel i m, buf.length = i → loop buf (fuel + 1) i m = (m, none)

def bvSegs (m : BridgeValidator) : List (List Nat × (BridgeValidator → BridgeValidator)) :=
  (if m.Power ≠ 0 then [(8 :: encodeVarintTypes m.Power, fun r => { r with Power := m.Power })]
   else [])
    ++ (if 0 < m.EthereumAddress.length then
          [(18 :: (encodeVarintTypes m.EthereumAddress.length ++ m.EthereumAddress),
            fun r => { r with EthereumAddress := m.EthereumAddress })]
        else [])

def memberSeg (e : BridgeValidator) : List Nat × (Valset → Valset) :=
  (18 :: (encodeVarintTypes e.Marshal.length ++ e.Marshal),
   fun r => { r with Members := r.Members ++ [e] })

def valsetSegs (m : Valset) : List (List Nat × (Valset → Valset)) :=
  (if m.Nonce ≠ 0 then [(8 :: encodeVarintTypes m.Nonce, fun r => { r with Nonce := m.Nonce })]
   else [])
    ++ m.Members.map memberSeg
    ++ (if m.Height ≠ 0 then
          [(24 :: encodeVarintTypes m.Height, fun r => { r with Height := m.Height })]
        else [])

def gcHashSegs : Option (List Nat) → List (List Nat × (GenericClaim → GenericClaim))
  | none => []
  | some bs =>
    if 0 < bs.length then
      [(26 :: (encodeVarintTypes bs.length ++ bs), fun r => { r with Hash := some bs })]
    else []

def gcSegs (m : GenericClaim) : List (List Nat × (GenericClaim → GenericClaim)) :=
  (if m.EventNonce ≠ 0 then
     [(8 :: encodeVarintTypes m.EventNonce, fun r => { r with EventNonce := m.EventNonce })]
   else [])
    ++ (if m.ClaimType ≠ 0 then
          [(16 :: encodeVarintTypes (claimTypeBits m.ClaimType),
            fun r => { r with ClaimType := m.ClaimType })]
        else [])
    ++ gcHashSegs m.Hash
    ++ (if 0 < m.EventClaimer.length then
          [(34 :: (encodeVarintTypes m.EventClaimer.length ++ m.EventClaimer),
            fun r => { r with EventClaimer := m.EventClaimer })]
        else [])

theorem getD_of_drop_cons {buf : List Nat} {i b : Nat} {rest : List Nat}
    (h : buf.drop i = b :: rest) : buf.getD i 0 = b := by
  have h0 := List.getElem?_drop buf i 0
  rw [h] at h0
  simp only [List.getElem?_cons_zero, Nat.add_zero] at h0
  simp [List.getD_eq_getElem?_getD, ← h0]

theorem drop_succ_of_drop_cons {α : Type} {buf : List α} {i : Nat} {b : α} {rest : List α}
    (h : buf.drop i = b :: rest) : buf.drop (i + 1) = rest := by
  rw [← List.tail_drop, h]
  rfl

theorem lt_length_of_drop_cons {α : Type} {buf : List α} {i : Nat} {b : α} {rest : List α}
    (h : buf.drop i = b :: rest) : i < buf.length := by
  have := List.length_drop i buf
  rw [h] at this
  simp at this
  omega

theorem drop_add_of_drop_append {α : Type} {buf : List α} {i : Nat} :
    ∀ {l r : List α}, buf.drop i = l ++ r → buf.drop (i + l.length) = r := by
  intro l
  induction l generalizing i with
  | nil => intro r h; simpa using h
  | cons b l ih =>
    intro r h
    have h1 : buf.drop (i + 1) = l ++ r := drop_succ_of_drop_cons h
    have := ih h1
    simpa [Nat.add_comm, Nat.add_assoc, Nat.add_left_comm] using this

theorem length_eq_of_drop_cons {α : Type} {buf : List α} {i : Nat} {b : α} {rest : List α}
    (h : buf.drop i = b :: rest) : buf.length = i + rest.length + 1 := by
  have := List.length_drop i buf
  rw [h] at this
  have := lt_length_of_drop_cons h
  simp at *
  omega

theorem lor_mod_two_pow (a b m : Nat) : (a ||| b) % 2 ^ m = a % 2 ^ m ||| b % 2 ^ m := by
  apply Nat.eq_of_testBit_eq
  intro j
  simp only [Nat.testBit_lor, Nat.testBit_mod_two_pow]
  by_cases h : j < m <;> simp [h]

theorem shl_split (v shift : Nat) :
    v <<< shift = ((v % 128) <<< shift) ||| ((v / 128) <<< (shift + 7)) := by
  have hdiv : v / 128 = v >>> 7 := by
    rw [Nat.shiftRight_eq_div_pow]
  have h128 : (128 : Nat) = 2 ^ 7 := by norm_num
  apply Nat.eq_of_testBit_eq
  intro j
  rw [hdiv, h128]
  simp only [Nat.testBit_lor, Nat.testBit_shiftLeft, Nat.testBit_mod_two_pow,
    Nat.testBit_shiftRight]
  by_cases h1 : shift ≤ j
  · by_cases h2 : shift + 7 ≤ j
    · have h3 : ¬(j - shift < 7) := by omega
      have h4 : 7 + (j - (shift + 7)) = j - shift := by omega
      simp [h1, h2, h3, h4, ge_iff_le]
    · have h3 : j - shift < 7 := by omega
      simp [h1, h2, h3, ge_iff_le]
  · have h2 : ¬(shift + 7 ≤ j) := by omega
    simp [h1, h2, ge_iff_le]

theorem readVarintLoop_exhausted (md : Nat) {buf : List Nat} {i shift : Nat} (acc fr : Nat)
    (hlen : buf.length ≤ i) (hs : shift < 64) :
    readVarintLoop md buf (fr + 1) i shift acc = (acc, .error .unexpectedEOF) := by
  simp only [readVarintLoop]
  rw [if_neg (by omega), if_neg (by omega)]

theorem readVarintLoop_ok (mm : Nat) :
    ∀ (fe v : Nat), v < 128 ^ fe →
    ∀ (buf rest : List Nat) (i fr shift acc : Nat),
      buf.drop i = varintBytes fe v ++ rest →
      fe < fr → shift < 64 → v * 2 ^ shift < 2 ^ 64 → acc < 2 ^ mm →
      readVarintLoop (2 ^ mm) buf fr i shift acc =
        (acc ||| ((v <<< shift) % 2 ^ mm), .ok (i + (varintBytes fe v).length)) := by
  intro fe
  induction fe with
  | zero =>
    intro v hv buf rest i fr shift acc hdrop hfr hs hv64 hacc
    interval_cases v
    obtain ⟨f, rfl⟩ : ∃ f, fr = f + 1 := ⟨fr - 1, by omega⟩
    simp only [varintBytes] at hdrop ⊢
    simp only [List.cons_append, List.nil_append] at hdrop
    simp only [readVarintLoop]
    rw [if_neg (by omega), if_pos (lt_length_of_drop_cons hdrop)]
    rw [getD_of_drop_cons hdrop]
    norm_num
  | succ fe ih =>
    intro v hv buf rest i fr shift acc hdrop hfr hs hv64 hacc
    obtain ⟨f, rfl⟩ : ∃ f, fr = f + 1 := ⟨fr - 1, by omega⟩
    by_cases hvs : v < 128
    · simp only [varintBytes, if_pos hvs] at hdrop ⊢
      simp only [List.cons_append, List.nil_append] at hdrop
      simp only [readVarintLoop]
      rw [if_neg (by omega), if_pos (lt_length_of_drop_cons hdrop)]
      rw [getD_of_drop_cons hdrop]
      simp only [Nat.mod_eq_of_lt hvs, if_pos hvs]
      simp
    · simp only [varintBytes, if_neg hvs] at hdrop ⊢
      simp only [List.cons_append] at hdrop
      simp only [readVarintLoop]
      rw [if_neg (by omega), if_pos (lt_length_of_drop_cons hdrop)]
      rw [getD_of_drop_cons hdrop]
      rw [if_neg (by omega)]
      have hb : (v % 128 + 128) % 128 = v % 128 := by omega
      have hdrop2 : buf.drop (i + 1) = varintBytes fe (v / 128) ++ rest :=
        drop_succ_of_drop_cons hdrop
      have hlt : v / 128 < 128 ^ fe := by
        rw [Nat.div_lt_iff_lt_mul (by norm_num)]
        calc v < 128 ^ (fe + 1) := hv
        _ = 128 ^ fe * 128 := by ring
      have hs7 : shift + 7 < 64 := by
        by_contra hc
        have h1 : (2 : Nat) ^ (shift + 7) ≤ v * 2 ^ shift := by
          calc (2:Nat) ^ (shift + 7) = 128 * 2 ^ shift := by ring
          _ ≤ v * 2 ^ shift := Nat.mul_le_mul_right _ (by omega)
        have h2 : (2 : Nat) ^ 64 ≤ 2 ^ (shift + 7) := Nat.pow_le_pow_right (by norm_num) (by omega)
        omega
      have hv64' : v / 128 * 2 ^ (shift + 7) < 2 ^ 64 := by
        calc v / 128 * 2 ^ (shift + 7) = v / 128 * 128 * 2 ^ shift := by ring
        _ ≤ v * 2 ^ shift := Nat.mul_le_mul_right _ (Nat.div_mul_le_self v 128)
        _ < 2 ^ 64 := hv64
      have hacc2 : acc ||| ((v % 128) <<< shift % 2 ^ mm) < 2 ^ mm :=
        Nat.or_lt_two_pow hacc (Nat.mod_lt _ (Nat.pos_pow_of_pos mm (by norm_num)))
      rw [hb]
      rw [ih (v / 128) hlt buf rest (i + 1) f (shift + 7) _ hdrop2 (by omega) hs7 hv64' hacc2]
      have hlen : i + 1 + (varintBytes fe (v / 128)).length
          = i + ((v % 128 + 128) :: varintBytes fe (v / 128)).length := by
        simp only [List.length_cons]; omega
      rw [hlen, Nat.lor_assoc, ← lor_mod_two_pow, ← shl_split]

theorem length_le_of_drop_nil {α : Type} {buf : List α} {i : Nat} (h : buf.drop i = []) :
    buf.length ≤ i := by
  have h2 := List.length_drop i buf
  rw [h] at h2
  simp at h2
  omega

theorem varintBytes_small {b : Nat} (fu : Nat) (hb : b < 128) : varintBytes (fu + 1) b = [b] := by
  simp [varintBytes, hb]

theorem encodeVarintTypes_small {b : Nat} (hb : b < 128) : encodeVarintTypes b = [b] :=
  varintBytes_small 9 hb

theorem readVarint_enc64 {buf rest : List Nat} {i v : Nat} (hv : v < 2 ^ 64)
    (h : buf.drop i = encodeVarintTypes v ++ rest) :
    readVarint (2 ^ 64) buf i = (v, .ok (i + (encodeVarintTypes v).length)) := by
  have hp : v < 128 ^ 10 := by
    calc v < 2 ^ 64 := hv
    _ ≤ 128 ^ 10 := by norm_num
  have h0 := readVarintLoop_ok 64 10 v hp buf rest i 11 0 0 h (by omega) (by omega)
    (by simpa using hv) (by positivity)
  unfold readVarint encodeVarintTypes
  rw [h0, Nat.shiftLeft_zero, Nat.mod_eq_of_lt hv, Nat.zero_or]

theorem readVarint_enc32 {buf rest : List Nat} {i v : Nat} (hv : v < 2 ^ 64)
    (h : buf.drop i = encodeVarintTypes v ++ rest) :
    readVarint (2 ^ 32) buf i = (v % 2 ^ 32, .ok (i + (encodeVarintTypes v).length)) := by
  have hp : v < 128 ^ 10 := by
    calc v < 2 ^ 64 := hv
    _ ≤ 128 ^ 10 := by norm_num
  have h0 := readVarintLoop_ok 32 10 v hp buf rest i 11 0 0 h (by omega) (by omega)
    (by simpa using hv) (by positivity)
  unfold readVarint encodeVarintTypes
  rw [h0, Nat.shiftLeft_zero, Nat.zero_or]

theorem readVarint_byte {buf rest : List Nat} {i b : Nat} (hb : b < 128)
    (h : buf.drop i = b :: rest) :
    readVarint (2 ^ 64) buf i = (b, .ok (i + 1)) := by
  have h2 : buf.drop i = encodeVarintTypes b ++ rest := by
    rw [encodeVarintTypes_small hb]; simpa using h
  have := readVarint_enc64 (by omega) h2
  simpa [encodeVarintTypes_small hb] using this

theorem readVarintLoop_trunc (mm : Nat) :
    ∀ (fe v : Nat), v < 128 ^ fe →
    ∀ (buf : List Nat) (t i fr shift acc : Nat),
      buf.drop i = (varintBytes fe v).take t →
      t < (varintBytes fe v).length →
      fe < fr → shift < 64 → v * 2 ^ shift < 2 ^ 64 →
      ∃ a2, readVarintLoop (2 ^ mm) buf fr i shift acc = (a2, .error .unexpectedEOF) := by
  intro fe
  induction fe with
  | zero =>
    intro v hv buf t i fr shift acc hdrop ht hfr hs hv64
    interval_cases v
    have ht0 : t = 0 := by simpa [varintBytes] using ht
    subst ht0
    simp only [List.take_zero] at hdrop
    obtain ⟨f, rfl⟩ : ∃ f, fr = f + 1 := ⟨fr - 1, by omega⟩
    exact ⟨acc, readVarintLoop_exhausted _ _ _ (length_le_of_drop_nil hdrop) hs⟩
  | succ fe ih =>
    intro v hv buf t i fr shift acc hdrop ht hfr hs hv64
    obtain ⟨f, rfl⟩ : ∃ f, fr = f + 1 := ⟨fr - 1, by omega⟩
    by_cases hvs : v < 128
    · have ht0 : t = 0 := by
        rw [varintBytes_small fe hvs] at ht
        simpa using ht
      subst ht0
      simp only [List.take_zero] at hdrop
      exact ⟨acc, readVarintLoop_exhausted _ _ _ (length_le_of_drop_nil hdrop) hs⟩
    · rcases Nat.eq_zero_or_pos t with ht0 | htpos
      · subst ht0
        simp only [List.take_zero] at hdrop
        exact ⟨acc, readVarintLoop_exhausted _ _ _ (length_le_of_drop_nil hdrop) hs⟩
      · obtain ⟨t', rfl⟩ : ∃ t2, t = t2 + 1 := ⟨t - 1, by omega⟩
        simp only [varintBytes, if_neg hvs, List.take_succ_cons, List.length_cons] at hdrop ht
        have hlt : v / 128 < 128 ^ fe := by
          rw [Nat.div_lt_iff_lt_mul (by norm_num)]
          calc v < 128 ^ (fe + 1) := hv
          _ = 128 ^ fe * 128 := by ring
        have hs7 : shift + 7 < 64 := by
          by_contra hc
          have h1 : (2 : Nat) ^ (shift + 7) ≤ v * 2 ^ shift := by
            calc (2:Nat) ^ (shift + 7) = 128 * 2 ^ shift := by ring
            _ ≤ v * 2 ^ shift := Nat.mul_le_mul_right _ (by omega)
          have h2 : (2 : Nat) ^ 64 ≤ 2 ^ (shift + 7) :=
            Nat.pow_le_pow_right (by norm_num) (by omega)
          omega
        have hv64' : v / 128 * 2 ^ (shift + 7) < 2 ^ 64 := by
          calc v / 128 * 2 ^ (shift + 7) = v / 128 * 128 * 2 ^ shift := by ring
          _ ≤ v * 2 ^ shift := Nat.mul_le_mul_right _ (Nat.div_mul_le_self v 128)
          _ < 2 ^ 64 := hv64
        have hdrop2 : buf.drop (i + 1) = (varintBytes fe (v / 128)).take t' :=
          drop_succ_of_drop_cons hdrop
        obtain ⟨a2, hres⟩ := ih (v / 128) hlt buf t' (i + 1) f (shift + 7)
          (acc ||| ((v % 128 + 128) % 128) <<< shift % 2 ^ mm) hdrop2 (by omega) (by omega)
          hs7 hv64'
        refine ⟨a2, ?_⟩
        simp only [readVarintLoop]
        rw [if_neg (by omega), if_pos (lt_length_of_drop_cons hdrop)]
        rw [getD_of_drop_cons hdrop]
        rw [if_neg (by omega)]
        exact hres

theorem readVarint_enc_trunc (mm : Nat) {buf : List Nat} {v t i : Nat} (hv : v < 2 ^ 64)
    (h : buf.drop i = (encodeVarintTypes v).take t) (ht : t < (encodeVarintTypes v).length) :
    ∃ a2, readVarint (2 ^ mm) buf i = (a2, .error .unexpectedEOF) := by
  have hp : v < 128 ^ 10 := by
    calc v < 2 ^ 64 := hv
    _ ≤ 128 ^ 10 := by norm_num
  exact readVarintLoop_trunc mm 10 v hp buf t i 11 0 0 h ht (by omega) (by omega)
    (by simpa using hv)

theorem varintBytes_ne_nil (fu v : Nat) : varintBytes fu v ≠ [] := by
  cases fu with
  | zero => simp [varintBytes]
  | succ fu =>
    simp only [varintBytes]
    split <;> simp

theorem length_eq_of_drop_ne_nil {α : Type} {buf l : List α} {i : Nat}
    (h : buf.drop i = l) (hl : l ≠ []) : buf.length = i + l.length := by
  cases l with
  | nil => simp at hl
  | cons b bs =>
    have h1 := length_eq_of_drop_cons h
    simp only [List.length_cons]
    omega

theorem readLengthDelim_ok {buf rest s : List Nat} {i : Nat}
    (h : buf.drop i = encodeVarintTypes s.length ++ (s ++ rest))
    (hs : s.length < 2 ^ 63) (hB : buf.length < 2 ^ 63) :
    readLengthDelim buf i =
      .ok (i + (encodeVarintTypes s.length).length,
           i + (encodeVarintTypes s.length).length + s.length) := by
  have hrv := readVarint_enc64 (v := s.length) (by omega) h
  have hlen : buf.length = i + ((encodeVarintTypes s.length).length + (s.length + rest.length)) := by
    have h9 := length_eq_of_drop_ne_nil h
      (List.append_ne_nil_of_left_ne_nil (varintBytes_ne_nil 10 s.length) _)
    simpa using h9
  unfold readLengthDelim
  rw [hrv]
  simp only []
  rw [if_neg (by omega), if_neg (by omega), if_neg (by omega)]

theorem readLengthDelim_trunc {buf s : List Nat} {L i t : Nat}
    (hL : L < 2 ^ 63)
    (h : buf.drop i = (encodeVarintTypes L ++ s).take t)
    (ht : t < (encodeVarintTypes L).length + L)
    (hbound : i + (encodeVarintTypes L).length + L < 2 ^ 63)
    (hlen : buf.length = i + t) :
    readLengthDelim buf i = .error .unexpectedEOF := by
  by_cases hcut : t < (encodeVarintTypes L).length
  · have h2 : buf.drop i = (encodeVarintTypes L).take t := by
      rw [List.take_append_eq_append_take] at h
      have h3 : t - (encodeVarintTypes L).length = 0 := by omega
      rw [h3] at h
      simpa using h
    obtain ⟨a2, hrv⟩ := readVarint_enc_trunc 64 (by omega) h2 hcut
    unfold readLengthDelim
    rw [hrv]
  · push_neg at hcut
    have h2 : buf.drop i = encodeVarintTypes L ++ s.take (t - (encodeVarintTypes L).length) := by
      rw [List.take_append_eq_append_take, List.take_of_length_le hcut] at h
      exact h
    have hrv := readVarint_enc64 (v := L) (by omega) h2
    unfold readLengthDelim
    rw [hrv]
    simp only []
    rw [if_neg (by omega), if_neg (by omega), if_pos (by omega)]

theorem catList_nil : catList [] = [] := rfl

theorem catList_cons (a : List Nat) (ls : List (List Nat)) :
    catList (a :: ls) = a ++ catList ls := rfl

theorem runSegs {α : Type} {loop : List Nat → Nat → Nat → α → α × Option DecodeError}
    (hEx : LoopExit loop) :
    ∀ (segs : List (List Nat × (α → α))),
      (∀ p ∈ segs, SegOK loop p.1 p.2) → (∀ p ∈ segs, p.1 ≠ []) →
      ∀ (buf : List Nat) (i fuel : Nat) (m : α),
        buf.length < 2 ^ 63 →
        buf.drop i = catList (segs.map Prod.fst) →
        buf.length = i + (catList (segs.map Prod.fst)).length →
        (catList (segs.map Prod.fst)).length < fuel →
        loop buf fuel i m = (segs.foldl (fun a p => p.2 a) m, none) := by
  intro segs
  induction segs with
  | nil =>
    intro _ _ buf i fuel m hB hdrop hlen hfuel
    obtain ⟨f, rfl⟩ : ∃ f, fuel = f + 1 := ⟨fuel - 1, by omega⟩
    simp only [List.map_nil, catList_nil, List.length_nil] at hlen
    simp only [List.foldl_nil]
    exact hEx buf f i m (by omega)
  | cons p segs ih =>
    intro hOK hNE buf i fuel m hB hdrop hlen hfuel
    obtain ⟨f, rfl⟩ : ∃ f, fuel = f + 1 := ⟨fuel - 1, by omega⟩
    simp only [List.map_cons, catList_cons] at hdrop hlen hfuel
    rw [List.length_append] at hlen hfuel
    have hp1 : 0 < p.1.length := List.length_pos.mpr (hNE p (by simp))
    rw [hOK p (by simp) buf i f m _ hdrop hB]
    have hdrop2 : buf.drop (i + p.1.length) = catList (segs.map Prod.fst) :=
      drop_add_of_drop_append hdrop
    rw [ih (fun q hq => hOK q (by simp [hq])) (fun q hq => hNE q (by simp [hq]))
      buf _ f (p.2 m) hB hdrop2 (by omega) (by omega)]
    simp only [List.foldl_cons]

theorem truncSegs {α : Type} {loop : List Nat → Nat → Nat → α → α × Option DecodeError}
    (hEx : LoopExit loop) :
    ∀ (segs : List (List Nat × (α → α))),
      (∀ p ∈ segs, SegOK loop p.1 p.2) → (∀ p ∈ segs, SegTrunc loop p.1) →
      (∀ p ∈ segs, p.1 ≠ []) →
      ∀ (buf : List Nat) (i fuel t : Nat) (m : α),
        t ≤ (catList (segs.map Prod.fst)).length →
        buf.drop i = (catList (segs.map Prod.fst)).take t →
        buf.length = i + t →
        i + (catList (segs.map Prod.fst)).length < 2 ^ 63 →
        t < fuel →
        ∃ m2, loop buf fuel i m = (m2, none) ∨ loop buf fuel i m = (m2, some .unexpectedEOF) := by
  intro segs
  induction segs with
  | nil =>
    intro _ _ _ buf i fuel t m ht hdrop hlen hbound hfuel
    obtain ⟨f, rfl⟩ : ∃ f, fuel = f + 1 := ⟨fuel - 1, by omega⟩
    simp only [List.map_nil, catList_nil, List.length_nil] at ht
    exact ⟨m, Or.inl (hEx buf f i m (by omega))⟩
  | cons p segs ih =>
    intro hOK hTR hNE buf i fuel t m ht hdrop hlen hbound hfuel
    obtain ⟨f, rfl⟩ : ∃ f, fuel = f + 1 := ⟨fuel - 1, by omega⟩
    simp only [List.map_cons, catList_cons] at ht hdrop hbound
    rw [List.length_append] at ht hbound
    have hp1 : 0 < p.1.length := List.length_pos.mpr (hNE p (by simp))
    rcases Nat.eq_zero_or_pos t with ht0 | htpos
    · subst ht0
      exact ⟨m, Or.inl (hEx buf f i m (by omega))⟩
    rcases lt_trichotomy t p.1.length with hcase | hcase | hcase
    · have hdrop2 : buf.drop i = p.1.take t := by
        rw [List.take_append_eq_append_take] at hdrop
        have h3 : t - p.1.length = 0 := by omega
        rw [h3] at hdrop
        simpa using hdrop
      obtain ⟨m2, hm⟩ := hTR p (by simp) buf i f m t htpos hcase hdrop2 hlen (by omega)
      exact ⟨m2, Or.inr hm⟩
    · have hdrop2 : buf.drop i = p.1 ++ [] := by
        rw [List.take_append_eq_append_take, hcase, List.take_length,
          Nat.sub_self, List.take_zero] at hdrop
        exact hdrop
      rw [hOK p (by simp) buf i f m [] hdrop2 (by omega)]
      obtain ⟨m2, hm⟩ := ih (fun q hq => hOK q (by simp [hq])) (fun q hq => hTR q (by simp [hq]))
        (fun q hq => hNE q (by simp [hq])) buf (i + p.1.length) f 0 (p.2 m)
        (by omega) (by rw [List.take_zero]; exact List.drop_eq_nil_of_le (by omega)) (by omega)
        (by omega) (by omega)
      exact ⟨m2, hm⟩
    · have hdrop2 : buf.drop i = p.1 ++ (catList (segs.map Prod.fst)).take (t - p.1.length) := by
        rw [List.take_append_eq_append_take, List.take_of_length_le (by omega)] at hdrop
        exact hdrop
      rw [hOK p (by simp) buf i f m _ hdrop2 (by omega)]
      obtain ⟨m2, hm⟩ := ih (fun q hq => hOK q (by simp [hq])) (fun q hq => hTR q (by simp [hq]))
        (fun q hq => hNE q (by simp [hq])) buf (i + p.1.length) f (t - p.1.length) (p.2 m)
        (by omega) (drop_add_of_drop_append hdrop2) (by omega) (by omega) (by omega)
      exact ⟨m2, hm⟩

theorem bvLoop_exit : LoopExit bvUnmarshalLoop := by
  intro buf fuel i m h
  simp only [bvUnmarshalLoop]
  rw [if_neg (by omega), if_neg (by omega)]

theorem bvSeg_Power (v : Nat) (hv : v < 2 ^ 64) :
    SegOK bvUnmarshalLoop (8 :: encodeVarintTypes v) (fun m => { m with Power := v }) := by
  intro buf i fuel m rest hdrop hB
  have hdrop' : buf.drop i = 8 :: (encodeVarintTypes v ++ rest) := by simpa using hdrop
  have htag := readVarint_byte (by norm_num) hdrop'
  have hdrop2 : buf.drop (i + 1) = encodeVarintTypes v ++ rest := drop_succ_of_drop_cons hdrop'
  have hval := readVarint_enc64 hv hdrop2
  simp only [bvUnmarshalLoop]
  rw [if_pos (lt_length_of_drop_cons hdrop'), htag]
  simp only []
  rw [if_neg (show ¬(8 % 8 = 4) by decide),
    if_neg (show ¬(8 >>> 3 % 2 ^ 32 = 0 ∨ 2 ^ 31 ≤ 8 >>> 3 % 2 ^ 32) by decide),
    if_pos (show 8 >>> 3 % 2 ^ 32 = 1 by decide),
    if_neg (show ¬(8 % 8 ≠ 0) by decide), hval]
  simp only [List.length_cons]
  have harith : i + 1 + (encodeVarintTypes v).length = i + ((encodeVarintTypes v).length + 1) := by
    omega
  rw [harith]

theorem bvSegTrunc_Power (v : Nat) (hv : v < 2 ^ 64) :
    SegTrunc bvUnmarshalLoop (8 :: encodeVarintTypes v) := by
  intro buf i fuel m t htpos ht hdrop hlen hbound
  obtain ⟨t', rfl⟩ : ∃ t2, t = t2 + 1 := ⟨t - 1, by omega⟩
  simp only [List.take_succ_cons, List.length_cons] at hdrop ht
  have htag := readVarint_byte (by norm_num) hdrop
  have hdrop2 : buf.drop (i + 1) = (encodeVarintTypes v).take t' := drop_succ_of_drop_cons hdrop
  obtain ⟨a2, hval⟩ := readVarint_enc_trunc 64 hv hdrop2 (by omega)
  refine ⟨{ m with Power := a2 }, ?_⟩
  simp only [bvUnmarshalLoop]
  rw [if_pos (lt_length_of_drop_cons hdrop), htag]
  simp only []
  rw [if_neg (show ¬(8 % 8 = 4) by decide),
    if_neg (show ¬(8 >>> 3 % 2 ^ 32 = 0 ∨ 2 ^ 31 ≤ 8 >>> 3 % 2 ^ 32) by decide),
    if_pos (show 8 >>> 3 % 2 ^ 32 = 1 by decide),
    if_neg (show ¬(8 % 8 ≠ 0) by decide), hval]

theorem bvSeg_EthereumAddress (s : List Nat) (hs : s.length < 2 ^ 62) :
    SegOK bvUnmarshalLoop (18 :: (encodeVarintTypes s.length ++ s))
      (fun m => { m with EthereumAddress := s }) := by
  intro buf i fuel m rest hdrop hB
  have hdrop' : buf.drop i = 18 :: (encodeVarintTypes s.length ++ (s ++ rest)) := by
    simpa using hdrop
  have htag := readVarint_byte (by norm_num) hdrop'
  have hdrop2 : buf.drop (i + 1) = encodeVarintTypes s.length ++ (s ++ rest) :=
    drop_succ_of_drop_cons hdrop'
  have hrld := readLengthDelim_ok hdrop2 (by omega) hB
  have hdrop3 : buf.drop (i + 1 + (encodeVarintTypes s.length).length) = s ++ rest :=
    drop_add_of_drop_append hdrop2
  simp only [bvUnmarshalLoop]
  rw [if_pos (lt_length_of_drop_cons hdrop'), htag]
  simp only []
  rw [if_neg (show ¬(18 % 8 = 4) by decide),
    if_neg (show ¬(18 >>> 3 % 2 ^ 32 = 0 ∨ 2 ^ 31 ≤ 18 >>> 3 % 2 ^ 32) by decide),
    if_neg (show ¬(18 >>> 3 % 2 ^ 32 = 1) by decide),
    if_pos (show 18 >>> 3 % 2 ^ 32 = 2 by decide),
    if_neg (show ¬(18 % 8 ≠ 2) by decide), hrld]
  simp only []
  have harith : i + 1 + (encodeVarintTypes s.length).length + s.length
      - (i + 1 + (encodeVarintTypes s.length).length) = s.length := by omega
  rw [harith, hdrop3, List.take_left]
  have harith2 : i + 1 + (encodeVarintTypes s.length).length + s.length
      = i + (18 :: (encodeVarintTypes s.length ++ s)).length := by
    simp only [List.length_cons, List.length_append]
    omega
  rw [harith2]

theorem bvSegTrunc_EthereumAddress (s : List Nat) (hs : s.length < 2 ^ 62) :
    SegTrunc bvUnmarshalLoop (18 :: (encodeVarintTypes s.length ++ s)) := by
  intro buf i fuel m t htpos ht hdrop hlen hbound
  obtain ⟨t', rfl⟩ : ∃ t2, t = t2 + 1 := ⟨t - 1, by omega⟩
  simp only [List.take_succ_cons, List.length_cons, List.length_append] at hdrop ht hbound
  have htag := readVarint_byte (by norm_num) hdrop
  have hdrop2 : buf.drop (i + 1) = (encodeVarintTypes s.length ++ s).take t' :=
    drop_succ_of_drop_cons hdrop
  have hrld := readLengthDelim_trunc (by omega) hdrop2 (by omega) (by omega) (by omega)
  refine ⟨m, ?_⟩
  simp only [bvUnmarshalLoop]
  rw [if_pos (lt_length_of_drop_cons hdrop), htag]
  simp only []
  rw [if_neg (show ¬(18 % 8 = 4) by decide),
    if_neg (show ¬(18 >>> 3 % 2 ^ 32 = 0 ∨ 2 ^ 31 ≤ 18 >>> 3 % 2 ^ 32) by decide),
    if_neg (show ¬(18 >>> 3 % 2 ^ 32 = 1) by decide),
    if_pos (show 18 >>> 3 % 2 ^ 32 = 2 by decide),
    if_neg (show ¬(18 % 8 ≠ 2) by decide), hrld]

theorem bvSegs_cat (m : BridgeValidator) : catList ((bvSegs m).map Prod.fst) = m.Marshal := by
  by_cases h1 : m.Power = 0 <;> by_cases h2 : m.EthereumAddress = [] <;>
    simp [bvSegs, BridgeValidator.Marshal, h1, h2, catList, List.length_pos]

theorem bvSegs_ok (m : BridgeValidator) (hWF : m.WF) :
    ∀ p ∈ bvSegs m, SegOK bvUnmarshalLoop p.1 p.2 := by
  obtain ⟨hp, ha, hmlen⟩ := hWF
  intro p hq
  simp only [bvSegs, List.mem_append] at hq
  rcases hq with hq | hq
  · split at hq
    · simp only [List.mem_singleton] at hq
      subst hq
      exact bvSeg_Power m.Power hp
    · simp at hq
  · split at hq
    · simp only [List.mem_singleton] at hq
      subst hq
      exact bvSeg_EthereumAddress m.EthereumAddress ha
    · simp at hq

theorem bvSegs_trunc (m : BridgeValidator) (hWF : m.WF) :
    ∀ p ∈ bvSegs m, SegTrunc bvUnmarshalLoop p.1 := by
  obtain ⟨hp, ha, hmlen⟩ := hWF
  intro p hq
  simp only [bvSegs, List.mem_append] at hq
  rcases hq with hq | hq
  · split at hq
    · simp only [List.mem_singleton] at hq
      subst hq
      exact bvSegTrunc_Power m.Power hp
    · simp at hq
  · split at hq
    · simp only [List.mem_singleton] at hq
      subst hq
      exact bvSegTrunc_EthereumAddress m.EthereumAddress ha
    · simp at hq

theorem bvSegs_ne (m : BridgeValidator) : ∀ p ∈ bvSegs m, p.1 ≠ [] := by
  intro p hq
  simp only [bvSegs, List.mem_append] at hq
  rcases hq with hq | hq <;> split at hq <;> simp at hq <;> subst hq <;> simp

theorem bvSegs_fold (m : BridgeValidator) :
    (bvSegs m).foldl (fun a p => p.2 a) ⟨0, []⟩ = m := by
  obtain ⟨P, A⟩ := m
  by_cases h1 : P = 0 <;> by_cases h2 : A = [] <;>
    simp [bvSegs, h1, h2, List.length_pos]

theorem bv_roundTrip (m : BridgeValidator) (hWF : m.WF) :
    BridgeValidator.Unmarshal ⟨0, []⟩ m.Marshal = (m, none) := by
  have hmlen := hWF.2.2
  have hcat := bvSegs_cat m
  have hrun := runSegs bvLoop_exit (bvSegs m) (bvSegs_ok m hWF) (bvSegs_ne m)
    m.Marshal 0 (m.Marshal.length + 1) ⟨0, []⟩
    hmlen (by rw [hcat]; simp) (by rw [hcat]; omega) (by rw [hcat]; omega)
  unfold BridgeValidator.Unmarshal
  rw [hrun, bvSegs_fold m]

theorem bv_truncation (m : BridgeValidator) (hWF : m.WF) (k : Nat) (hk : k ≤ m.Marshal.length) :
    ∃ m2, BridgeValidator.decode (m.Marshal.take k) = (m2, none) ∨
      BridgeValidator.decode (m.Marshal.take k) = (m2, some .unexpectedEOF) := by
  have hmlen := hWF.2.2
  have hcat := bvSegs_cat m
  have hlen : (m.Marshal.take k).length = k := by
    simp [List.length_take]
    omega
  have := truncSegs bvLoop_exit (bvSegs m) (bvSegs_ok m hWF) (bvSegs_trunc m hWF) (bvSegs_ne m)
    (m.Marshal.take k) 0 ((m.Marshal.take k).length + 1) k ⟨0, []⟩
    (by rw [hcat]; omega) (by rw [hcat]; simp) (by omega) (by rw [hcat]; omega) (by omega)
  exact this

theorem valsetLoop_exit : LoopExit valsetUnmarshalLoop := by
  intro buf fuel i m h
  simp only [valsetUnmarshalLoop]
  rw [if_neg (by omega), if_neg (by omega)]

theorem valsetSeg_Nonce (v : Nat) (hv : v < 2 ^ 64) :
    SegOK valsetUnmarshalLoop (8 :: encodeVarintTypes v) (fun m => { m with Nonce := v }) := by
  intro buf i fuel m rest hdrop hB
  have hdrop' : buf.drop i = 8 :: (encodeVarintTypes v ++ rest) := by simpa using hdrop
  have htag := readVarint_byte (by norm_num) hdrop'
  have hval := readVarint_enc64 hv (drop_succ_of_drop_cons hdrop')
  simp only [valsetUnmarshalLoop]
  rw [if_pos (lt_length_of_drop_cons hdrop'), htag]
  simp only []
  rw [if_neg (show ¬(8 % 8 = 4) by decide),
    if_neg (show ¬(8 >>> 3 % 2 ^ 32 = 0 ∨ 2 ^ 31 ≤ 8 >>> 3 % 2 ^ 32) by decide),
    if_pos (show 8 >>> 3 % 2 ^ 32 = 1 by decide),
    if_neg (show ¬(8 % 8 ≠ 0) by decide), hval]
  simp only [List.length_cons]
  have harith : i + 1 + (encodeVarintTypes v).length = i + ((encodeVarintTypes v).length + 1) := by
    omega
  rw [harith]

theorem valsetSegTrunc_Nonce (v : Nat) (hv : v < 2 ^ 64) :
    SegTrunc valsetUnmarshalLoop (8 :: encodeVarintTypes v) := by
  intro buf i fuel m t htpos ht hdrop hlen hbound
  obtain ⟨t', rfl⟩ : ∃ t2, t = t2 + 1 := ⟨t - 1, by omega⟩
  simp only [List.take_succ_cons, List.length_cons] at hdrop ht
  have htag := readVarint_byte (by norm_num) hdrop
  obtain ⟨a2, hval⟩ := readVarint_enc_trunc 64 hv (drop_succ_of_drop_cons hdrop) (by omega)
  refine ⟨{ m with Nonce := a2 }, ?_⟩
  simp only [valsetUnmarshalLoop]
  rw [if_pos (lt_length_of_drop_cons hdrop), htag]
  simp only []
  rw [if_neg (show ¬(8 % 8 = 4) by decide),
    if_neg (show ¬(8 >>> 3 % 2 ^ 32 = 0 ∨ 2 ^ 31 ≤ 8 >>> 3 % 2 ^ 32) by decide),
    if_pos (show 8 >>> 3 % 2 ^ 32 = 1 by decide),
    if_neg (show ¬(8 % 8 ≠ 0) by decide), hval]

theorem valsetSeg_Height (v : Nat) (hv : v < 2 ^ 64) :
    SegOK valsetUnmarshalLoop (24 :: encodeVarintTypes v) (fun m => { m with Height := v }) := by
  intro buf i fuel m rest hdrop hB
  have hdrop' : buf.drop i = 24 :: (encodeVarintTypes v ++ rest) := by simpa using hdrop
  have htag := readVarint_byte (by norm_num) hdrop'
  have hval := readVarint_enc64 hv (drop_succ_of_drop_cons hdrop')
  simp only [valsetUnmarshalLoop]
  rw [if_pos (lt_length_of_drop_cons hdrop'), htag]
  simp only []
  rw [if_neg (show ¬(24 % 8 = 4) by decide),
    if_neg (show ¬(24 >>> 3 % 2 ^ 32 = 0 ∨ 2 ^ 31 ≤ 24 >>> 3 % 2 ^ 32) by decide),
    if_neg (show ¬(24 >>> 3 % 2 ^ 32 = 1) by decide),
    if_neg (show ¬(24 >>> 3 % 2 ^ 32 = 2) by decide),
    if_pos (show 24 >>> 3 % 2 ^ 32 = 3 by decide),
    if_neg (show ¬(24 % 8 ≠ 0) by decide), hval]
  simp only [List.length_cons]
  have harith : i + 1 + (encodeVarintTypes v).length = i + ((encodeVarintTypes v).length + 1) := by
    omega
  rw [harith]

theorem valsetSegTrunc_Height (v : Nat) (hv : v < 2 ^ 64) :
    SegTrunc valsetUnmarshalLoop (24 :: encodeVarintTypes v) := by
  intro buf i fuel m t htpos ht hdrop hlen hbound
  obtain ⟨t', rfl⟩ : ∃ t2, t = t2 + 1 := ⟨t - 1, by omega⟩
  simp only [List.take_succ_cons, List.length_cons] at hdrop ht
  have htag := readVarint_byte (by norm_num) hdrop
  obtain ⟨a2, hval⟩ := readVarint_enc_trunc 64 hv (drop_succ_of_drop_cons hdrop) (by omega)
  refine ⟨{ m with Height := a2 }, ?_⟩
  simp only [valsetUnmarshalLoop]
  rw [if_pos (lt_length_of_drop_cons hdrop), htag]
  simp only []
  rw [if_neg (show ¬(24 % 8 = 4) by decide),
    if_neg (show ¬(24 >>> 3 % 2 ^ 32 = 0 ∨ 2 ^ 31 ≤ 24 >>> 3 % 2 ^ 32) by decide),
    if_neg (show ¬(24 >>> 3 % 2 ^ 32 = 1) by decide),
    if_neg (show ¬(24 >>> 3 % 2 ^ 32 = 2) by decide),
    if_pos (show 24 >>> 3 % 2 ^ 32 = 3 by decide),
    if_neg (show ¬(24 % 8 ≠ 0) by decide), hval]

theorem valsetSeg_member (e : BridgeValidator) (he : e.WF) :
    SegOK valsetUnmarshalLoop (18 :: (encodeVarintTypes e.Marshal.length ++ e.Marshal))
      (fun m => { m with Members := m.Members ++ [e] }) := by
  intro buf i fuel m rest hdrop hB
  have hdrop' : buf.drop i = 18 :: (encodeVarintTypes e.Marshal.length ++ (e.Marshal ++ rest)) := by
    simpa using hdrop
  have htag := readVarint_byte (by norm_num) hdrop'
  have hdrop2 : buf.drop (i + 1) = encodeVarintTypes e.Marshal.length ++ (e.Marshal ++ rest) :=
    drop_succ_of_drop_cons hdrop'
  have hrld := readLengthDelim_ok hdrop2 (by have := he.2.2; omega) hB
  have hdrop3 : buf.drop (i + 1 + (encodeVarintTypes e.Marshal.length).length)
      = e.Marshal ++ rest := drop_add_of_drop_append hdrop2
  simp only [valsetUnmarshalLoop]
  rw [if_pos (lt_length_of_drop_cons hdrop'), htag]
  simp only []
  rw [if_neg (show ¬(18 % 8 = 4) by decide),
    if_neg (show ¬(18 >>> 3 % 2 ^ 32 = 0 ∨ 2 ^ 31 ≤ 18 >>> 3 % 2 ^ 32) by decide),
    if_neg (show ¬(18 >>> 3 % 2 ^ 32 = 1) by decide),
    if_pos (show 18 >>> 3 % 2 ^ 32 = 2 by decide),
    if_neg (show ¬(18 % 8 ≠ 2) by decide), hrld]
  simp only []
  have harith : i + 1 + (encodeVarintTypes e.Marshal.length).length + e.Marshal.length
      - (i + 1 + (encodeVarintTypes e.Marshal.length).length) = e.Marshal.length := by omega
  rw [harith, hdrop3, List.take_left, bv_roundTrip e he]
  simp only []
  have harith2 : i + 1 + (encodeVarintTypes e.Marshal.length).length + e.Marshal.length
      = i + (18 :: (encodeVarintTypes e.Marshal.length ++ e.Marshal)).length := by
    simp only [List.length_cons, List.length_append]
    omega
  rw [harith2]

theorem valsetSegTrunc_member (e : BridgeValidator) (he : e.WF) :
    SegTrunc valsetUnmarshalLoop (18 :: (encodeVarintTypes e.Marshal.length ++ e.Marshal)) := by
  intro buf i fuel m t htpos ht hdrop hlen hbound
  obtain ⟨t', rfl⟩ : ∃ t2, t = t2 + 1 := ⟨t - 1, by omega⟩
  simp only [List.take_succ_cons, List.length_cons, List.length_append] at hdrop ht hbound
  have htag := readVarint_byte (by norm_num) hdrop
  have hrld := readLengthDelim_trunc (by have := he.2.2; omega)
    (drop_succ_of_drop_cons hdrop) (by omega) (by omega) (by omega)
  refine ⟨m, ?_⟩
  simp only [valsetUnmarshalLoop]
  rw [if_pos (lt_length_of_drop_cons hdrop), htag]
  simp only []
  rw [if_neg (show ¬(18 % 8 = 4) by decide),
    if_neg (show ¬(18 >>> 3 % 2 ^ 32 = 0 ∨ 2 ^ 31 ≤ 18 >>> 3 % 2 ^ 32) by decide),
    if_neg (show ¬(18 >>> 3 % 2 ^ 32 = 1) by decide),
    if_pos (show 18 >>> 3 % 2 ^ 32 = 2 by decide),
    if_neg (show ¬(18 % 8 ≠ 2) by decide), hrld]

theorem catList_append (xs ys : List (List Nat)) :
    catList (xs ++ ys) = catList xs ++ catList ys := by
  induction xs with
  | nil => rfl
  | cons a xs ih => simp [catList_cons, ih]

theorem valset_blocks_append (ms : List BridgeValidator) (z : List Nat) :
    List.foldr (fun e acc => 18 :: (encodeVarintTypes e.Marshal.length ++ (e.Marshal ++ acc)))
        z ms
      = List.foldr (fun e acc => 18 :: (encodeVarintTypes e.Marshal.length ++ (e.Marshal ++ acc)))
          [] ms ++ z := by
  induction ms with
  | nil => simp
  | cons e ms ih => simp [ih]

theorem valsetSegs_cat (m : Valset) : catList ((valsetSegs m).map Prod.fst) = m.Marshal := by
  by_cases h1 : m.Nonce = 0 <;> by_cases h3 : m.Height = 0 <;>
    simp [valsetSegs, Valset.Marshal, h1, h3, catList_append, List.map_append, memberSeg,
      catList, List.foldr_map] <;>
    exact valset_blocks_append _ _

theorem valsetSegs_ok (m : Valset) (hWF : m.WF) :
    ∀ p ∈ valsetSegs m, SegOK valsetUnmarshalLoop p.1 p.2 := by
  obtain ⟨hn, hh, hmem, hmlen⟩ := hWF
  intro p hq
  simp only [valsetSegs, List.mem_append] at hq
  rcases hq with (hq | hq) | hq
  · split at hq
    · simp only [List.mem_singleton] at hq
      subst hq
      exact valsetSeg_Nonce m.Nonce hn
    · simp at hq
  · rw [List.mem_map] at hq
    obtain ⟨e, he, rfl⟩ := hq
    exact valsetSeg_member e (hmem e he)
  · split at hq
    · simp only [List.mem_singleton] at hq
      subst hq
      exact valsetSeg_Height m.Height hh
    · simp at hq

theorem valsetSegs_trunc (m : Valset) (hWF : m.WF) :
    ∀ p ∈ valsetSegs m, SegTrunc valsetUnmarshalLoop p.1 := by
  obtain ⟨hn, hh, hmem, hmlen⟩ := hWF
  intro p hq
  simp only [valsetSegs, List.mem_append] at hq
  rcases hq with (hq | hq) | hq
  · split at hq
    · simp only [List.mem_singleton] at hq
      subst hq
      exact valsetSegTrunc_Nonce m.Nonce hn
    · simp at hq
  · rw [List.mem_map] at hq
    obtain ⟨e, he, rfl⟩ := hq
    exact valsetSegTrunc_member e (hmem e he)
  · split at hq
    · simp only [List.mem_singleton] at hq
      subst hq
      exact valsetSegTrunc_Height m.Height hh
    · simp at hq

theorem valsetSegs_ne (m : Valset) : ∀ p ∈ valsetSegs m, p.1 ≠ [] := by
  intro p hq
  simp only [valsetSegs, List.mem_append] at hq
  rcases hq with (hq | hq) | hq
  · split at hq <;> simp at hq <;> subst hq <;> simp
  · rw [List.mem_map] at hq
    obtain ⟨e, he, rfl⟩ := hq
    simp [memberSeg]
  · split at hq <;> simp at hq <;> subst hq <;> simp

theorem foldl_memberSegs (ms : List BridgeValidator) (r : Valset) :
    (ms.map memberSeg).foldl (fun a p => p.2 a) r = { r with Members := r.Members ++ ms } := by
  induction ms generalizing r with
  | nil => simp
  | cons e ms ih =>
    simp only [List.map_cons, List.foldl_cons, memberSeg]
    rw [ih]
    simp

theorem valsetSegs_fold (m : Valset) :
    (valsetSegs m).foldl (fun a p => p.2 a) ⟨0, [], 0⟩ = m := by
  obtain ⟨N, Ms, H⟩ := m
  by_cases h1 : N = 0 <;> by_cases h3 : H = 0 <;>
    simp [valsetSegs, h1, h3, List.foldl_append, foldl_memberSegs]

theorem valset_roundTrip (m : Valset) (hWF : m.WF) :
    Valset.Unmarshal ⟨0, [], 0⟩ m.Marshal = (m, none) := by
  have hmlen := hWF.2.2.2
  have hcat := valsetSegs_cat m
  have hrun := runSegs valsetLoop_exit (valsetSegs m) (valsetSegs_ok m hWF) (valsetSegs_ne m)
    m.Marshal 0 (m.Marshal.length + 1) ⟨0, [], 0⟩
    hmlen (by rw [hcat]; simp) (by rw [hcat]; omega) (by rw [hcat]; omega)
  unfold Valset.Unmarshal
  rw [hrun, valsetSegs_fold m]

theorem valset_truncation (m : Valset) (hWF : m.WF) (k : Nat) (hk : k ≤ m.Marshal.length) :
    ∃ m2, Valset.decode (m.Marshal.take k) = (m2, none) ∨
      Valset.decode (m.Marshal.take k) = (m2, some .unexpectedEOF) := by
  have hmlen := hWF.2.2.2
  have hcat := valsetSegs_cat m
  have hlen : (m.Marshal.take k).length = k := by
    simp [List.length_take]
    omega
  exact truncSegs valsetLoop_exit (valsetSegs m) (valsetSegs_ok m hWF) (valsetSegs_trunc m hWF)
    (valsetSegs_ne m) (m.Marshal.take k) 0 ((m.Marshal.take k).length + 1) k ⟨0, [], 0⟩
    (by rw [hcat]; omega) (by rw [hcat]; simp) (by omega) (by rw [hcat]; omega) (by omega)

theorem claimTypeBits_lt (c : Int) : claimTypeBits c < 2 ^ 64 := by
  unfold claimTypeBits
  omega

theorem toInt32_claimTypeBits (c : Int) (hc1 : -(2 ^ 31) ≤ c) (hc2 : c < 2 ^ 31) :
    toInt32 (claimTypeBits c % 2 ^ 32) = c := by
  unfold toInt32 claimTypeBits
  split <;> omega

theorem hashAssign (old : Option (List Nat)) (bs : List Nat) :
    (if appendResliced old bs = none then some [] else appendResliced old bs) = some bs := by
  unfold appendResliced
  cases old <;> by_cases h : bs = [] <;> simp [h]

theorem gcLoop_exit : LoopExit gcUnmarshalLoop := by
  intro buf fuel i m h
  simp only [gcUnmarshalLoop]
  rw [if_neg (by omega), if_neg (by omega)]

theorem gcSeg_EventNonce (v : Nat) (hv : v < 2 ^ 64) :
    SegOK gcUnmarshalLoop (8 :: encodeVarintTypes v) (fun m => { m with EventNonce := v }) := by
  intro buf i fuel m rest hdrop hB
  have hdrop' : buf.drop i = 8 :: (encodeVarintTypes v ++ rest) := by simpa using hdrop
  have htag := readVarint_byte (by norm_num) hdrop'
  have hval := readVarint_enc64 hv (drop_succ_of_drop_cons hdrop')
  simp only [gcUnmarshalLoop]
  rw [if_pos (lt_length_of_drop_cons hdrop'), htag]
  simp only []
  rw [if_neg (show ¬(8 % 8 = 4) by decide),
    if_neg (show ¬(8 >>> 3 % 2 ^ 32 = 0 ∨ 2 ^ 31 ≤ 8 >>> 3 % 2 ^ 32) by decide),
    if_pos (show 8 >>> 3 % 2 ^ 32 = 1 by decide),
    if_neg (show ¬(8 % 8 ≠ 0) by decide), hval]
  simp only [List.length_cons]
  have harith : i + 1 + (encodeVarintTypes v).length = i + ((encodeVarintTypes v).length + 1) := by
    omega
  rw [harith]

theorem gcSegTrunc_EventNonce (v : Nat) (hv : v < 2 ^ 64) :
    SegTrunc gcUnmarshalLoop (8 :: encodeVarintTypes v) := by
  intro buf i fuel m t htpos ht hdrop hlen hbound
  obtain ⟨t', rfl⟩ : ∃ t2, t = t2 + 1 := ⟨t - 1, by omega⟩
  simp only [List.take_succ_cons, List.length_cons] at hdrop ht
  have htag := readVarint_byte (by norm_num) hdrop
  obtain ⟨a2, hval⟩ := readVarint_enc_trunc 64 hv (drop_succ_of_drop_cons hdrop) (by omega)
  refine ⟨{ m with EventNonce := a2 }, ?_⟩
  simp only [gcUnmarshalLoop]
  rw [if_pos (lt_length_of_drop_cons hdrop), htag]
  simp only []
  rw [if_neg (show ¬(8 % 8 = 4) by decide),
    if_neg (show ¬(8 >>> 3 % 2 ^ 32 = 0 ∨ 2 ^ 31 ≤ 8 >>> 3 % 2 ^ 32) by decide),
    if_pos (show 8 >>> 3 % 2 ^ 32 = 1 by decide),
    if_neg (show ¬(8 % 8 ≠ 0) by decide), hval]

theorem gcSeg_ClaimType (c : Int) (hc1 : -(2 ^ 31) ≤ c) (hc2 : c < 2 ^ 31) :
    SegOK gcUnmarshalLoop (16 :: encodeVarintTypes (claimTypeBits c))
      (fun m => { m with ClaimType := c }) := by
  intro buf i fuel m rest hdrop hB
  have hdrop' : buf.drop i = 16 :: (encodeVarintTypes (claimTypeBits c) ++ rest) := by
    simpa using hdrop
  have htag := readVarint_byte (by norm_num) hdrop'
  have hval := readVarint_enc32 (claimTypeBits_lt c) (drop_succ_of_drop_cons hdrop')
  simp only [gcUnmarshalLoop]
  rw [if_pos (lt_length_of_drop_cons hdrop'), htag]
  simp only []
  rw [if_neg (show ¬(16 % 8 = 4) by decide),
    if_neg (show ¬(16 >>> 3 % 2 ^ 32 = 0 ∨ 2 ^ 31 ≤ 16 >>> 3 % 2 ^ 32) by decide),
    if_neg (show ¬(16 >>> 3 % 2 ^ 32 = 1) by decide),
    if_pos (show 16 >>> 3 % 2 ^ 32 = 2 by decide),
    if_neg (show ¬(16 % 8 ≠ 0) by decide), hval]
  simp only []
  rw [toInt32_claimTypeBits c hc1 hc2]
  simp only [List.length_cons]
  have harith : i + 1 + (encodeVarintTypes (claimTypeBits c)).length
      = i + ((encodeVarintTypes (claimTypeBits c)).length + 1) := by omega
  rw [harith]

theorem gcSegTrunc_ClaimType (c : Int) :
    SegTrunc gcUnmarshalLoop (16 :: encodeVarintTypes (claimTypeBits c)) := by
  intro buf i fuel m t htpos ht hdrop hlen hbound
  obtain ⟨t', rfl⟩ : ∃ t2, t = t2 + 1 := ⟨t - 1, by omega⟩
  simp only [List.take_succ_cons, List.length_cons] at hdrop ht
  have htag := readVarint_byte (by norm_num) hdrop
  obtain ⟨a2, hval⟩ := readVarint_enc_trunc 32 (claimTypeBits_lt c)
    (drop_succ_of_drop_cons hdrop) (by omega)
  refine ⟨{ m with ClaimType := toInt32 a2 }, ?_⟩
  simp only [gcUnmarshalLoop]
  rw [if_pos (lt_length_of_drop_cons hdrop), htag]
  simp only []
  rw [if_neg (show ¬(16 % 8 = 4) by decide),
    if_neg (show ¬(16 >>> 3 % 2 ^ 32 = 0 ∨ 2 ^ 31 ≤ 16 >>> 3 % 2 ^ 32) by decide),
    if_neg (show ¬(16 >>> 3 % 2 ^ 32 = 1) by decide),
    if_pos (show 16 >>> 3 % 2 ^ 32 = 2 by decide),
    if_neg (show ¬(16 % 8 ≠ 0) by decide), hval]

theorem gcSeg_Hash (bs : List Nat) (hbs : bs.length < 2 ^ 62) :
    SegOK gcUnmarshalLoop (26 :: (encodeVarintTypes bs.length ++ bs))
      (fun m => { m with Hash := some bs }) := by
  intro buf i fuel m rest hdrop hB
  have hdrop' : buf.drop i = 26 :: (encodeVarintTypes bs.length ++ (bs ++ rest)) := by
    simpa using hdrop
  have htag := readVarint_byte (by norm_num) hdrop'
  have hdrop2 : buf.drop (i + 1) = encodeVarintTypes bs.length ++ (bs ++ rest) :=
    drop_succ_of_drop_cons hdrop'
  have hrld := readLengthDelim_ok hdrop2 (by omega) hB
  have hdrop3 : buf.drop (i + 1 + (encodeVarintTypes bs.length).length) = bs ++ rest :=
    drop_add_of_drop_append hdrop2
  simp only [gcUnmarshalLoop]
  rw [if_pos (lt_length_of_drop_cons hdrop'), htag]
  simp only []
  rw [if_neg (show ¬(26 % 8 = 4) by decide),
    if_neg (show ¬(26 >>> 3 % 2 ^ 32 = 0 ∨ 2 ^ 31 ≤ 26 >>> 3 % 2 ^ 32) by decide),
    if_neg (show ¬(26 >>> 3 % 2 ^ 32 = 1) by decide),
    if_neg (show ¬(26 >>> 3 % 2 ^ 32 = 2) by decide),
    if_pos (show 26 >>> 3 % 2 ^ 32 = 3 by decide),
    if_neg (show ¬(26 % 8 ≠ 2) by decide), hrld]
  simp only []
  have harith : i + 1 + (encodeVarintTypes bs.length).length + bs.length
      - (i + 1 + (encodeVarintTypes bs.length).length) = bs.length := by omega
  rw [harith, hdrop3, List.take_left, hashAssign]
  have harith2 : i + 1 + (encodeVarintTypes bs.length).length + bs.length
      = i + (26 :: (encodeVarintTypes bs.length ++ bs)).length := by
    simp only [List.length_cons, List.length_append]
    omega
  rw [harith2]

theorem gcSegTrunc_Hash (bs : List Nat) (hbs : bs.length < 2 ^ 62) :
    SegTrunc gcUnmarshalLoop (26 :: (encodeVarintTypes bs.length ++ bs)) := by
  intro buf i fuel m t htpos ht hdrop hlen hbound
  obtain ⟨t', rfl⟩ : ∃ t2, t = t2 + 1 := ⟨t - 1, by omega⟩
  simp only [List.take_succ_cons, List.length_cons, List.length_append] at hdrop ht hbound
  have htag := readVarint_byte (by norm_num) hdrop
  have hrld := readLengthDelim_trunc (by omega)
    (drop_succ_of_drop_cons hdrop) (by omega) (by omega) (by omega)
  refine ⟨m, ?_⟩
  simp only [gcUnmarshalLoop]
  rw [if_pos (lt_length_of_drop_cons hdrop), htag]
  simp only []
  rw [if_neg (show ¬(26 % 8 = 4) by decide),
    if_neg (show ¬(26 >>> 3 % 2 ^ 32 = 0 ∨ 2 ^ 31 ≤ 26 >>> 3 % 2 ^ 32) by decide),
    if_neg (show ¬(26 >>> 3 % 2 ^ 32 = 1) by decide),
    if_neg (show ¬(26 >>> 3 % 2 ^ 32 = 2) by decide),
    if_pos (show 26 >>> 3 % 2 ^ 32 = 3 by decide),
    if_neg (show ¬(26 % 8 ≠ 2) by decide), hrld]

theorem gcSeg_EventClaimer (s : List Nat) (hs : s.length < 2 ^ 62) :
    SegOK gcUnmarshalLoop (34 :: (encodeVarintTypes s.length ++ s))
      (fun m => { m with EventClaimer := s }) := by
  intro buf i fuel m rest hdrop hB
  have hdrop' : buf.drop i = 34 :: (encodeVarintTypes s.length ++ (s ++ rest)) := by
    simpa using hdrop
  have htag := readVarint_byte (by norm_num) hdrop'
  have hdrop2 : buf.drop (i + 1) = encodeVarintTypes s.length ++ (s ++ rest) :=
    drop_succ_of_drop_cons hdrop'
  have hrld := readLengthDelim_ok hdrop2 (by omega) hB
  have hdrop3 : buf.drop (i + 1 + (encodeVarintTypes s.length).length) = s ++ rest :=
    drop_add_of_drop_append hdrop2
  simp only [gcUnmarshalLoop]
  rw [if_pos (lt_length_of_drop_cons hdrop'), htag]
  simp only []
  rw [if_neg (show ¬(34 % 8 = 4) by decide),
    if_neg (show ¬(34 >>> 3 % 2 ^ 32 = 0 ∨ 2 ^ 31 ≤ 34 >>> 3 % 2 ^ 32) by decide),
    if_neg (show ¬(34 >>> 3 % 2 ^ 32 = 1) by decide),
    if_neg (show ¬(34 >>> 3 % 2 ^ 32 = 2) by decide),
    if_neg (show ¬(34 >>> 3 % 2 ^ 32 = 3) by decide),
    if_pos (show 34 >>> 3 % 2 ^ 32 = 4 by decide),
    if_neg (show ¬(34 % 8 ≠ 2) by decide), hrld]
  simp only []
  have harith : i + 1 + (encodeVarintTypes s.length).length + s.length
      - (i + 1 + (encodeVarintTypes s.length).length) = s.length := by omega
  rw [harith, hdrop3, List.take_left]
  have harith2 : i + 1 + (encodeVarintTypes s.length).length + s.length
      = i + (34 :: (encodeVarintTypes s.length ++ s)).length := by
    simp only [List.length_cons, List.length_append]
    omega
  rw [harith2]

theorem gcSegTrunc_EventClaimer (s : List Nat) (hs : s.length < 2 ^ 62) :
    SegTrunc gcUnmarshalLoop (34 :: (encodeVarintTypes s.length ++ s)) := by
  intro buf i fuel m t htpos ht hdrop hlen hbound
  obtain ⟨t', rfl⟩ : ∃ t2, t = t2 + 1 := ⟨t - 1, by omega⟩
  simp only [List.take_succ_cons, List.length_cons, List.length_append] at hdrop ht hbound
  have htag := readVarint_byte (by norm_num) hdrop
  have hrld := readLengthDelim_trunc (by omega)
    (drop_succ_of_drop_cons hdrop) (by omega) (by omega) (by omega)
  refine ⟨m, ?_⟩
  simp only [gcUnmarshalLoop]
  rw [if_pos (lt_length_of_drop_cons hdrop), htag]
  simp only []
  rw [if_neg (show ¬(34 % 8 = 4) by decide),
    if_neg (show ¬(34 >>> 3 % 2 ^ 32 = 0 ∨ 2 ^ 31 ≤ 34 >>> 3 % 2 ^ 32) by decide),
    if_neg (show ¬(34 >>> 3 % 2 ^ 32 = 1) by decide),
    if_neg (show ¬(34 >>> 3 % 2 ^ 32 = 2) by decide),
    if_neg (show ¬(34 >>> 3 % 2 ^ 32 = 3) by decide),
    if_pos (show 34 >>> 3 % 2 ^ 32 = 4 by decide),
    if_neg (show ¬(34 % 8 ≠ 2) by decide), hrld]

theorem catList_opt {α : Type} (c : Prop) [Decidable c] (bytes : List Nat) (f : α → α) :
    catList (((if c then [(bytes, f)] else []) : List (List Nat × (α → α))).map Prod.fst)
      = if c then bytes else [] := by
  split <;> simp [catList]

theorem gcSegs_cat (m : GenericClaim) : catList ((gcSegs m).map Prod.fst) = m.Marshal := by
  rcases hHash : m.Hash with _ | bs <;>
    simp only [gcSegs, GenericClaim.Marshal, gcHashSegs, hHash, List.map_append, catList_append,
      catList_opt] <;>
    congr 1 <;>
    congr 1 <;>
    split <;> simp [catList]

theorem gcSegs_ok (m : GenericClaim) (hWF : m.WF) :
    ∀ p ∈ gcSegs m, SegOK gcUnmarshalLoop p.1 p.2 := by
  obtain ⟨hE, hc1, hc2, hH, hS, hmlen⟩ := hWF
  intro p hq
  simp only [gcSegs, List.mem_append] at hq
  rcases hq with ((hq | hq) | hq) | hq
  · split at hq
    · simp only [List.mem_singleton] at hq
      subst hq
      exact gcSeg_EventNonce _ hE
    · simp at hq
  · split at hq
    · simp only [List.mem_singleton] at hq
      subst hq
      exact gcSeg_ClaimType _ hc1 hc2
    · simp at hq
  · rcases hHash : m.Hash with _ | bs
    · rw [hHash] at hq
      simp [gcHashSegs] at hq
    · rw [hHash] at hq
      rw [hHash] at hH
      simp only [] at hH
      simp only [gcHashSegs] at hq
      split at hq
      · simp only [List.mem_singleton] at hq
        subst hq
        exact gcSeg_Hash bs hH
      · simp at hq
  · split at hq
    · simp only [List.mem_singleton] at hq
      subst hq
      exact gcSeg_EventClaimer _ hS
    · simp at hq

theorem gcSegs_trunc (m : GenericClaim) (hWF : m.WF) :
    ∀ p ∈ gcSegs m, SegTrunc gcUnmarshalLoop p.1 := by
  obtain ⟨hE, hc1, hc2, hH, hS, hmlen⟩ := hWF
  intro p hq
  simp only [gcSegs, List.mem_append] at hq
  rcases hq with ((hq | hq) | hq) | hq
  · split at hq
    · simp only [List.mem_singleton] at hq
      subst hq
      exact gcSegTrunc_EventNonce _ hE
    · simp at hq
  · split at hq
    · simp only [List.mem_singleton] at hq
      subst hq
      exact gcSegTrunc_ClaimType _
    · simp at hq
  · rcases hHash : m.Hash with _ | bs
    · rw [hHash] at hq
      simp [gcHashSegs] at hq
    · rw [hHash] at hq
      rw [hHash] at hH
      simp only [] at hH
      simp only [gcHashSegs] at hq
      split at hq
      · simp only [List.mem_singleton] at hq
        subst hq
        exact gcSegTrunc_Hash bs hH
      · simp at hq
  · split at hq
    · simp only [List.mem_singleton] at hq
      subst hq
      exact gcSegTrunc_EventClaimer _ hS
    · simp at hq

theorem gcSegs_ne (m : GenericClaim) : ∀ p ∈ gcSegs m, p.1 ≠ [] := by
  intro p hq
  simp only [gcSegs, List.mem_append] at hq
  rcases hq with ((hq | hq) | hq) | hq
  · split at hq <;> simp at hq <;> subst hq <;> simp
  · split at hq <;> simp at hq <;> subst hq <;> simp
  · rcases hHash : m.Hash with _ | bs
    · rw [hHash] at hq
      simp [gcHashSegs] at hq
    · rw [hHash] at hq
      simp only [gcHashSegs] at hq
      split at hq <;> simp at hq <;> subst hq <;> simp
  · split at hq <;> simp at hq <;> subst hq <;> simp

theorem gcSegs_fold (m : GenericClaim) (hcanon : m.Hash ≠ some []) :
    (gcSegs m).foldl (fun a p => p.2 a) ⟨0, 0, none, []⟩ = m := by
  obtain ⟨E, C, H, S⟩ := m
  rcases H with _ | bs
  · by_cases h1 : E = 0 <;> by_cases h2 : C = 0 <;> by_cases h4 : S = [] <;>
      simp [gcSegs, gcHashSegs, h1, h2, h4, List.length_pos, List.foldl_append]
  · have h3 : bs ≠ [] := by simpa using hcanon
    by_cases h1 : E = 0 <;> by_cases h2 : C = 0 <;> by_cases h4 : S = [] <;>
      simp [gcSegs, gcHashSegs, h1, h2, h3, h4, List.length_pos, List.foldl_append]

theorem gc_roundTrip (m : GenericClaim) (hWF : m.WF) (hcanon : m.Hash ≠ some []) :
    GenericClaim.Unmarshal ⟨0, 0, none, []⟩ m.Marshal = (m, none) := by
  have hmlen := hWF.2.2.2.2.2
  have hcat := gcSegs_cat m
  have hrun := runSegs gcLoop_exit (gcSegs m) (gcSegs_ok m hWF) (gcSegs_ne m)
    m.Marshal 0 (m.Marshal.length + 1) ⟨0, 0, none, []⟩
    hmlen (by rw [hcat]; simp) (by rw [hcat]; omega) (by rw [hcat]; omega)
  unfold GenericClaim.Unmarshal
  rw [hrun, gcSegs_fold m hcanon]

theorem gc_truncation (m : GenericClaim) (hWF : m.WF) (k : Nat) (hk : k ≤ m.Marshal.length) :
    ∃ m2, GenericClaim.decode (m.Marshal.take k) = (m2, none) ∨
      GenericClaim.decode (m.Marshal.take k) = (m2, some .unexpectedEOF) := by
  have hmlen := hWF.2.2.2.2.2
  have hcat := gcSegs_cat m
  have hlen : (m.Marshal.take k).length = k := by
    simp [List.length_take]
    omega
  exact truncSegs gcLoop_exit (gcSegs m) (gcSegs_ok m hWF) (gcSegs_trunc m hWF)
    (gcSegs_ne m) (m.Marshal.take k) 0 ((m.Marshal.take k).length + 1) k ⟨0, 0, none, []⟩
    (by rw [hcat]; omega) (by rw [hcat]; simp) (by omega) (by rw [hcat]; omega) (by omega)

theorem skip_end12 :
    ∀ (d : Nat), 1 ≤ d → ∀ (buf rest : List Nat) (i fuel : Nat),
      buf.drop i = List.replicate d 12 ++ rest → buf.length < 2 ^ 63 → d ≤ fuel →
      skipTypesLoop buf fuel i d = .ok (i + d) := by
  intro d
  induction d with
  | zero => omega
  | succ d ih =>
    intro _ buf rest i fuel hdrop hB hfuel
    obtain ⟨f, rfl⟩ : ∃ f, fuel = f + 1 := ⟨fuel - 1, by omega⟩
    have hdrop' : buf.drop i = 12 :: (List.replicate d 12 ++ rest) := by
      simpa [List.replicate_succ] using hdrop
    have htag := readVarint_byte (by norm_num) hdrop'
    simp only [skipTypesLoop]
    rw [if_pos (lt_length_of_drop_cons hdrop'), htag]
    simp only []
    rw [if_neg (by omega), if_neg (by have := lt_length_of_drop_cons hdrop'; omega)]
    rcases Nat.eq_zero_or_pos d with rfl | hd
    · simp
    · rw [if_neg (by omega)]
      have hd1 : d + 1 - 1 = d := by omega
      rw [hd1, ih hd buf rest (i + 1) f (drop_succ_of_drop_cons hdrop') hB (by omega)]
      congr 1
      omega

theorem skip_open11 :
    ∀ (k : Nat), ∀ (buf rest : List Nat) (i depth fuel : Nat),
      buf.drop i = List.replicate k 11 ++ rest → buf.length < 2 ^ 63 → k ≤ fuel →
      skipTypesLoop buf fuel i depth = skipTypesLoop buf (fuel - k) (i + k) (depth + k) := by
  intro k
  induction k with
  | zero => simp
  | succ k ih =>
    intro buf rest i depth fuel hdrop hB hfuel
    obtain ⟨f, rfl⟩ : ∃ f, fuel = f + 1 := ⟨fuel - 1, by omega⟩
    have hdrop' : buf.drop i = 11 :: (List.replicate k 11 ++ rest) := by
      simpa [List.replicate_succ] using hdrop
    have htag := readVarint_byte (by norm_num) hdrop'
    conv_lhs => rw [skipTypesLoop]
    rw [if_pos (lt_length_of_drop_cons hdrop'), htag]
    simp only []
    rw [if_neg (by have := lt_length_of_drop_cons hdrop'; omega), if_neg (by omega)]
    rw [ih buf rest (i + 1) (depth + 1) f (drop_succ_of_drop_cons hdrop') hB (by omega)]
    congr 1 <;> omega

theorem skipTypes_deep_groups (n : Nat) (h1 : 1 ≤ n) (h2 : n < 2 ^ 62) :
    skipTypes (List.replicate n 11 ++ List.replicate n 12) = .ok (2 * n) := by
  unfold skipTypes
  have hlen : (List.replicate n 11 ++ List.replicate n 12).length = 2 * n := by
    simp
    omega
  rw [skip_open11 n _ (List.replicate n 12) 0 0 _ (by simp) (by omega) (by omega)]
  have e0 : 0 + n = n := by omega
  rw [e0]
  rw [skip_end12 n h1 _ [] n _ (by rw [List.drop_left' (by simp)]; simp) (by omega) (by omega)]
  congr 1
  omega

theorem skipTypes_unclosed_group (n : Nat) (h1 : 1 ≤ n) (h2 : n < 2 ^ 62) :
    skipTypes (List.replicate n 11) = .error .unexpectedEOF := by
  unfold skipTypes
  have hlen : (List.replicate n 11).length = n := by simp
  rw [skip_open11 n _ [] 0 0 _ (by simp) (by omega) (by omega)]
  have hf : (List.replicate n 11 : List Nat).length + 1 - n = 1 := by
    simp
  rw [hf]
  simp only [skipTypesLoop]
  rw [if_neg (by simp)]

theorem skipTypes_end_group_at_zero (rest : List Nat) :
    skipTypes (12 :: rest) = .error .unexpectedEndOfGroup := by
  unfold skipTypes
  have htag : readVarint (2 ^ 64) (12 :: rest) 0 = (12, .ok 1) := by
    have h0 := @readVarint_byte (12 :: rest) rest 0 12
      (by norm_num) (by simp)
    simpa using h0
  simp only [skipTypesLoop]
  rw [if_pos (by simp), htag]
  simp only []
  simp

theorem le_lor_left : ∀ (x y : Nat), x ≤ x ||| y := by
  intro x
  induction x using Nat.strong_induction_on with
  | _ x ih =>
    intro y
    rcases Nat.eq_zero_or_pos x with rfl | hx
    · simp
    have h2 : x / 2 ≤ (x ||| y) / 2 := by
      rw [Nat.or_div_two]
      exact ih (x / 2) (by omega) (y / 2)
    have h3 : x % 2 = 1 → (x ||| y) % 2 = 1 := fun h => Nat.or_mod_two_eq_one.mpr (Or.inl h)
    have h4 := Nat.mod_two_eq_zero_or_one x
    have h5 := Nat.div_add_mod x 2
    have h6 := Nat.div_add_mod (x ||| y) 2
    omega

theorem size_div_two (x : Nat) (hx : 1 ≤ x) : Nat.size x = Nat.size (x / 2) + 1 := by
  have hlow : 2 ^ Nat.size (x / 2) ≤ x := by
    rcases Nat.eq_zero_or_pos (x / 2) with h0 | hp
    · rw [h0, Nat.size_zero]
      simpa using hx
    · have hs1 : 1 ≤ Nat.size (x / 2) := Nat.size_pos.mpr hp
      have h7 : 2 ^ (Nat.size (x / 2) - 1) ≤ x / 2 := by
        rw [← Nat.lt_size]
        omega
      have h8 : 2 ^ Nat.size (x / 2) = 2 ^ (Nat.size (x / 2) - 1) * 2 := by
        rw [← Nat.pow_succ]
        congr 1
        omega
      omega
  have hlow2 : Nat.size (x / 2) < Nat.size x := Nat.lt_size.mpr hlow
  have hhigh : Nat.size x ≤ Nat.size (x / 2) + 1 := by
    rw [Nat.size_le]
    have h9 := Nat.lt_size_self (x / 2)
    have h10 : (2 : Nat) ^ (Nat.size (x / 2) + 1) = 2 ^ Nat.size (x / 2) * 2 :=
      Nat.pow_succ 2 _
    omega
  omega

theorem len64_eq_size : ∀ (k x : Nat), x < 2 ^ k → len64 k x = Nat.size x := by
  intro k
  induction k with
  | zero =>
    intro x hx
    interval_cases x
    simp [len64]
  | succ k ih =>
    intro x hx
    rcases Nat.eq_zero_or_pos x with rfl | hxp
    · simp [len64]
    rw [len64, if_neg (by omega), ih (x / 2) (by
      have h2 : (2 : Nat) ^ (k + 1) = 2 ^ k * 2 := Nat.pow_succ 2 k
      omega)]
    rw [← size_div_two x hxp]

theorem size_lor_one (x : Nat) : Nat.size (x ||| 1) = Nat.size (max x 1) := by
  rcases Nat.eq_zero_or_pos x with rfl | hx
  · simp
  · have hmax : max x 1 = x := by omega
    rw [hmax]
    apply Nat.le_antisymm
    · rw [Nat.size_le]
      apply Nat.or_lt_two_pow (Nat.lt_size_self x)
      have h1 : 1 ≤ Nat.size x := Nat.size_pos.mpr hx
      calc (1 : Nat) < 2 ^ 1 := by norm_num
      _ ≤ 2 ^ Nat.size x := Nat.pow_le_pow_right (by norm_num) h1
    · exact Nat.size_le_size (le_lor_left x 1)

theorem sovTypes_eq_size (v : Nat) (hv : v < 2 ^ 64) :
    sovTypes v = (Nat.size (max v 1) + 6) / 7 := by
  unfold sovTypes
  rw [len64_eq_size 64 (v ||| 1) (Nat.or_lt_two_pow hv (by norm_num)), size_lor_one]

theorem varintBytes_length : ∀ (fe v : Nat), v < 128 ^ fe → 1 ≤ fe →
    (varintBytes fe v).length = (Nat.size (max v 1) + 6) / 7 := by
  intro fe
  induction fe with
  | zero => omega
  | succ fe ih =>
    intro v hv _
    by_cases hvs : v < 128
    · rw [varintBytes_small fe hvs]
      have h1 : 1 ≤ Nat.size (max v 1) := Nat.size_pos.mpr (by omega)
      have h2 : Nat.size (max v 1) ≤ 7 := Nat.size_le.mpr (by
        have h3 : max v 1 < 128 := by omega
        calc max v 1 < 128 := h3
        _ = 2 ^ 7 := by norm_num)
      simp only [List.length_cons, List.length_nil]
      omega
    · simp only [varintBytes, if_neg hvs, List.length_cons]
      have hfe : 1 ≤ fe := by
        by_contra h
        have h0 : fe = 0 := by omega
        subst h0
        simp at hv
        omega
      rw [ih (v / 128) (by
        rw [Nat.div_lt_iff_lt_mul (by norm_num)]
        calc v < 128 ^ (fe + 1) := hv
        _ = 128 ^ fe * 128 := by ring) hfe]
      have hx : max v 1 = v := by omega
      have hy : max (v / 128) 1 = v / 128 := by omega
      rw [hx, hy]
      have e1 := size_div_two v (by omega)
      have e2 := size_div_two (v / 2) (by omega)
      have e3 := size_div_two (v / 4) (by omega)
      have e4 := size_div_two (v / 8) (by omega)
      have e5 := size_div_two (v / 16) (by omega)
      have e6 := size_div_two (v / 32) (by omega)
      have e7 := size_div_two (v / 64) (by omega)
      have d1 : v / 2 / 2 = v / 4 := by omega
      have d2 : v / 4 / 2 = v / 8 := by omega
      have d3 : v / 8 / 2 = v / 16 := by omega
      have d4 : v / 16 / 2 = v / 32 := by omega
      have d5 : v / 32 / 2 = v / 64 := by omega
      have d6 : v / 64 / 2 = v / 128 := by omega
      rw [d1] at e2
      rw [d2] at e3
      rw [d3] at e4
      rw [d4] at e5
      rw [d5] at e6
      rw [d6] at e7
      have hs1 : 1 ≤ Nat.size (v / 128) := Nat.size_pos.mpr (by omega)
      omega

theorem encodeVarintTypes_length (v : Nat) (hv : v < 2 ^ 64) :
    (encodeVarintTypes v).length = sovTypes v := by
  rw [sovTypes_eq_size v hv]
  exact varintBytes_length 10 v (by
    calc v < 2 ^ 64 := hv
    _ ≤ 128 ^ 10 := by norm_num) (by omega)

theorem sovTypes_le_ten (v : Nat) (hv : v < 2 ^ 64) : sovTypes v ≤ 10 := by
  rw [sovTypes_eq_size v hv]
  have h1 : Nat.size (max v 1) ≤ 64 := Nat.size_le.mpr (by
    rcases Nat.eq_zero_or_pos v with rfl | hp
    · norm_num
    · have : max v 1 = v := by omega
      omega)
  omega

theorem sovTypes_ten (v : Nat) (h1 : 2 ^ 63 ≤ v) (h2 : v < 2 ^ 64) : sovTypes v = 10 := by
  rw [sovTypes_eq_size v h2]
  have hmax : max v 1 = v := by omega
  rw [hmax]
  have hs1 : Nat.size v ≤ 64 := Nat.size_le.mpr h2
  have hs2 : 63 < Nat.size v := Nat.lt_size.mpr h1
  omega

theorem encLen_le_ten (v : Nat) (hv : v < 2 ^ 64) : (encodeVarintTypes v).length ≤ 10 := by
  rw [encodeVarintTypes_length v hv]
  exact sovTypes_le_ten v hv

/-- C1 (amended): a known field number occurring with a wire type different
from the field's expected wire type is a hard error, not a skipped unknown
field: `Unmarshal` returns the "wrong wireType" error for that field
(`BridgeValidator` field 1 at wire type 2, `Valset` field 2 at wire type 0,
`GenericClaim` field 3 at wire type 0), whatever bytes follow; only an unknown
field number (e.g. field 5 on `BridgeValidator`) is skipped with decode
succeeding. -/
theorem c1_mismatched_wiretype_is_hard_error :
    (∀ rest : List Nat, (BridgeValidator.decode (10 :: rest)).2
        = some (DecodeError.wrongWireType "Power" 2)) ∧
    (∀ rest : List Nat, (Valset.decode (16 :: rest)).2
        = some (DecodeError.wrongWireType "Members" 0)) ∧
    (∀ rest : List Nat, (GenericClaim.decode (24 :: rest)).2
        = some (DecodeError.wrongWireType "Hash" 0)) ∧
    BridgeValidator.decode [40, 5] = (⟨0, []⟩, none) := by
  refine ⟨?_, ?_, ?_, by decide⟩
  · intro rest
    have htag : readVarint (2 ^ 64) (10 :: rest) 0 = (10, .ok 1) := by
      have h0 := @readVarint_byte (10 :: rest) rest 0 10
        (by norm_num) (by simp)
      simpa using h0
    unfold BridgeValidator.decode BridgeValidator.Unmarshal
    simp only [bvUnmarshalLoop]
    rw [if_pos (by simp), htag]
    simp only []
    rw [if_neg (show ¬(10 % 8 = 4) by decide),
      if_neg (show ¬(10 >>> 3 % 2 ^ 32 = 0 ∨ 2 ^ 31 ≤ 10 >>> 3 % 2 ^ 32) by decide),
      if_pos (show 10 >>> 3 % 2 ^ 32 = 1 by decide),
      if_pos (show (10 % 8 ≠ 0) by decide)]
  · intro rest
    have htag : readVarint (2 ^ 64) (16 :: rest) 0 = (16, .ok 1) := by
      have h0 := @readVarint_byte (16 :: rest) rest 0 16
        (by norm_num) (by simp)
      simpa using h0
    unfold Valset.decode Valset.Unmarshal
    simp only [valsetUnmarshalLoop]
    rw [if_pos (by simp), htag]
    simp only []
    rw [if_neg (show ¬(16 % 8 = 4) by decide),
      if_neg (show ¬(16 >>> 3 % 2 ^ 32 = 0 ∨ 2 ^ 31 ≤ 16 >>> 3 % 2 ^ 32) by decide),
      if_neg (show ¬(16 >>> 3 % 2 ^ 32 = 1) by decide),
      if_pos (show 16 >>> 3 % 2 ^ 32 = 2 by decide),
      if_pos (show (16 % 8 ≠ 2) by decide)]
  · intro rest
    have htag : readVarint (2 ^ 64) (24 :: rest) 0 = (24, .ok 1) := by
      have h0 := @readVarint_byte (24 :: rest) rest 0 24
        (by norm_num) (by simp)
      simpa using h0
    unfold GenericClaim.decode GenericClaim.Unmarshal
    simp only [gcUnmarshalLoop]
    rw [if_pos (by simp), htag]
    simp only []
    rw [if_neg (show ¬(24 % 8 = 4) by decide),
      if_neg (show ¬(24 >>> 3 % 2 ^ 32 = 0 ∨ 2 ^ 31 ≤ 24 >>> 3 % 2 ^ 32) by decide),
      if_neg (show ¬(24 >>> 3 % 2 ^ 32 = 1) by decide),
      if_neg (show ¬(24 >>> 3 % 2 ^ 32 = 2) by decide),
      if_pos (show 24 >>> 3 % 2 ^ 32 = 3 by decide),
      if_pos (show (24 % 8 ≠ 2) by decide)]

/-- C1 counterexample: `[0x0A, 0x00]` is a well-formed buffer in which the
known field number 1 of `BridgeValidator` occurs with wire type 2 (an empty
length-delimited payload); the claim predicts decode skips it and succeeds,
but decode returns a hard "wrong wireType" error. -/
theorem c1_counterexample :
    BridgeValidator.decode [10, 0] = (⟨0, []⟩, some (DecodeError.wrongWireType "Power" 2)) ∧
    (BridgeValidator.decode [10, 0]).2 ≠ none := by
  decide

/-- C2 (amended): `decode (Marshal r) = r` field for field for every
representable record of the three kinds whose `Hash` is not the explicitly
empty non-nil byte slice; a `Valset` with an empty members sequence
round-trips to an empty members sequence.  (An explicitly empty `Hash` is the
one exception: it encodes to nothing and decodes back to nil, see the
counterexample.) -/
theorem c2_round_trip :
    (∀ r : BridgeValidator, r.WF → BridgeValidator.decode r.Marshal = (r, none)) ∧
    (∀ v : Valset, v.WF → Valset.decode v.Marshal = (v, none)) ∧
    (∀ g : GenericClaim, g.WF → g.Hash ≠ some [] →
      GenericClaim.decode g.Marshal = (g, none)) :=
  ⟨fun r h => bv_roundTrip r h, fun v h => valset_roundTrip v h,
   fun g h hc => gc_roundTrip g h hc⟩

theorem c2_round_trip_witness :
    (BridgeValidator.WF ⟨300, [48, 120, 97, 98, 99]⟩ ∧
      BridgeValidator.decode (BridgeValidator.Marshal ⟨300, [48, 120, 97, 98, 99]⟩)
        = (⟨300, [48, 120, 97, 98, 99]⟩, none)) ∧
    (Valset.WF ⟨9, [⟨300, [48]⟩], 0⟩ ∧
      Valset.decode (Valset.Marshal ⟨9, [⟨300, [48]⟩], 0⟩) = (⟨9, [⟨300, [48]⟩], 0⟩, none)) ∧
    (GenericClaim.WF ⟨5, -7, some [1, 2], [65]⟩ ∧
      (⟨5, -7, some [1, 2], [65]⟩ : GenericClaim).Hash ≠ some [] ∧
      GenericClaim.decode (GenericClaim.Marshal ⟨5, -7, some [1, 2], [65]⟩)
        = (⟨5, -7, some [1, 2], [65]⟩, none)) :=
  ⟨⟨by decide, c2_round_trip.1 _ (by decide)⟩,
   ⟨by decide, c2_round_trip.2.1 _ (by decide)⟩,
   ⟨by decide, by decide, c2_round_trip.2.2 _ (by decide) (by decide)⟩⟩

/-- C2 counterexample: the `GenericClaim` whose `Hash` is the explicitly empty
(non-nil) byte slice encodes to the empty buffer, and decoding that yields a
nil `Hash`, which differs from the original record — so `decode (encode r)`
is not `r` field for field for every record. -/
theorem c2_counterexample :
    GenericClaim.decode (GenericClaim.Marshal ⟨0, 0, some [], []⟩) = (⟨0, 0, none, []⟩, none) ∧
    (⟨0, 0, none, []⟩ : GenericClaim) ≠ ⟨0, 0, some [], []⟩ := by
  decide

/-- C3 (amended): decoding a strict prefix of a valid record's encoding never
produces any error other than `UnexpectedEnd` (and never panics — decode is
total): it either fails with `UnexpectedEnd` (when the prefix cuts an encoded
field) or succeeds, yielding the record assembled from the fields that are
complete in the prefix (when the prefix ends on a field boundary — including
the empty prefix, which decodes to the zero record). -/
theorem c3_truncation_safety :
    (∀ r : BridgeValidator, r.WF → ∀ k, k < r.Marshal.length →
      ∃ m2, BridgeValidator.decode (r.Marshal.take k) = (m2, none) ∨
        BridgeValidator.decode (r.Marshal.take k) = (m2, some .unexpectedEOF)) ∧
    (∀ v : Valset, v.WF → ∀ k, k < v.Marshal.length →
      ∃ m2, Valset.decode (v.Marshal.take k) = (m2, none) ∨
        Valset.decode (v.Marshal.take k) = (m2, some .unexpectedEOF)) ∧
    (∀ g : GenericClaim, g.WF → ∀ k, k < g.Marshal.length →
      ∃ m2, GenericClaim.decode (g.Marshal.take k) = (m2, none) ∨
        GenericClaim.decode (g.Marshal.take k) = (m2, some .unexpectedEOF)) :=
  ⟨fun r h k hk => bv_truncation r h k (by omega),
   fun v h k hk => valset_truncation v h k (by omega),
   fun g h k hk => gc_truncation g h k (by omega)⟩

theorem c3_truncation_safety_witness :
    BridgeValidator.WF ⟨300, [48, 120, 97, 98, 99]⟩ ∧
    4 < (BridgeValidator.Marshal ⟨300, [48, 120, 97, 98, 99]⟩).length ∧
    (∃ m2, BridgeValidator.decode ((BridgeValidator.Marshal ⟨300, [48, 120, 97, 98, 99]⟩).take 4)
        = (m2, none) ∨
      BridgeValidator.decode ((BridgeValidator.Marshal ⟨300, [48, 120, 97, 98, 99]⟩).take 4)
        = (m2, some .unexpectedEOF)) :=
  ⟨by decide, by decide, c3_truncation_safety.1 _ (by decide) 4 (by decide)⟩

/-- C3 counterexample: the 3-byte strict prefix `08 AC 02` of the 10-byte
encoding of `BridgeValidator{Power: 300, EthereumAddress: "0xabc"}` decodes
SUCCESSFULLY (to the partial record with only `Power` set) instead of failing
with `UnexpectedEnd` as the claim demands of every strict prefix. -/
theorem c3_counterexample :
    BridgeValidator.decode ((BridgeValidator.Marshal ⟨300, [48, 120, 97, 98, 99]⟩).take 3)
      = (⟨300, []⟩, none) ∧
    3 < (BridgeValidator.Marshal ⟨300, [48, 120, 97, 98, 99]⟩).length := by
  decide

/-- C4: for every `uint64` value `v`, the varint byte sequence written by
`encodeVarintTypes` has exactly `sovTypes v` bytes, and `sovTypes v` is
`ceil(bit_length(max v 1) / 7)` — that is, `(bitlen + 6) / 7` with a minimum
of one byte — with the concrete anchor values `sovTypes 0 = 1`,
`sovTypes 127 = 1`, `sovTypes 128 = 2`, `sovTypes (2^63) = 10`. -/
theorem c4_varint_size_law :
    (∀ v : Nat, v < 2 ^ 64 →
      (encodeVarintTypes v).length = sovTypes v ∧
      sovTypes v = (Nat.size (max v 1) + 6) / 7) ∧
    sovTypes 0 = 1 ∧ sovTypes 127 = 1 ∧ sovTypes 128 = 2 ∧ sovTypes (2 ^ 63) = 10 :=
  ⟨fun v hv => ⟨encodeVarintTypes_length v hv, sovTypes_eq_size v hv⟩,
   by decide, by decide, by decide, by decide⟩

theorem c4_varint_size_law_witness :
    300 < 2 ^ 64 ∧ ((encodeVarintTypes 300).length = sovTypes 300 ∧
      sovTypes 300 = (Nat.size (max 300 1) + 6) / 7) :=
  ⟨by decide, c4_varint_size_law.1 300 (by decide)⟩

/-- C5 (amended): after decoding a `GenericClaim`, the `Hash` field is non-nil
(the empty byte sequence when the payload is empty) whenever field 3 occurs on
the wire — decoding a buffer that carries field 3 with any payload `bs`
(including the empty one) yields `Hash = some bs`; but when field 3 is
entirely absent from the buffer, `Hash` stays nil, so absence is
distinguishable from explicit emptiness after decode. -/
theorem c5_hash_empty_substitution :
    (∀ bs : List Nat, bs.length < 2 ^ 62 →
      GenericClaim.decode (26 :: (encodeVarintTypes bs.length ++ bs))
        = (⟨0, 0, some bs, []⟩, none)) ∧
    GenericClaim.decode [] = (⟨0, 0, none, []⟩, none) := by
  constructor
  · intro bs hbs
    have hOK : ∀ p ∈ [((26 :: (encodeVarintTypes bs.length ++ bs)),
        (fun r => { r with Hash := some bs } : GenericClaim → GenericClaim))],
        SegOK gcUnmarshalLoop p.1 p.2 := by
      intro p hp
      simp only [List.mem_singleton] at hp
      subst hp
      exact gcSeg_Hash bs hbs
    have hNE : ∀ p ∈ [((26 :: (encodeVarintTypes bs.length ++ bs)),
        (fun r => { r with Hash := some bs } : GenericClaim → GenericClaim))], p.1 ≠ [] := by
      intro p hp
      simp only [List.mem_singleton] at hp
      subst hp
      simp
    have hlen : (26 :: (encodeVarintTypes bs.length ++ bs)).length < 2 ^ 63 := by
      have h10 := encLen_le_ten bs.length (by omega)
      simp only [List.length_cons, List.length_append]
      omega
    have hrun := runSegs gcLoop_exit _ hOK hNE (26 :: (encodeVarintTypes bs.length ++ bs)) 0
      ((26 :: (encodeVarintTypes bs.length ++ bs)).length + 1) ⟨0, 0, none, []⟩ hlen
      (by simp [catList]) (by simp [catList]) (by simp [catList])
    unfold GenericClaim.decode GenericClaim.Unmarshal
    rw [hrun]
    rfl
  · decide

/-- C5 counterexample: with the hash field entirely absent from the buffer
(the empty buffer), decode leaves `Hash` nil — not the empty byte sequence —
so the claimed "empty rather than null even when absent" normalization does
not happen for absent fields. -/
theorem c5_counterexample :
    GenericClaim.decode [] = (⟨0, 0, none, []⟩, none) ∧
    (none : Option (List Nat)) ≠ some [] := by
  decide

/-- C6 (amended): the skip routine tracks group nesting depth for wire types
3 and 4, and fails when depth does not return to zero — with `UnexpectedEnd`
when the buffer ends with open groups, and with the unexpected-end-of-group
error when an end-group tag appears at depth zero.  But there is NO maximum
nesting bound: `n` nested groups are skipped successfully for every `n`
(the skip loop is iterative, bounded only by the input length). -/
theorem c6_group_depth_tracking (n : Nat) (h1 : 1 ≤ n) (h2 : n < 2 ^ 62) :
    skipTypes (List.replicate n 11 ++ List.replicate n 12) = .ok (2 * n) ∧
    skipTypes (List.replicate n 11) = .error .unexpectedEOF ∧
    (∀ rest : List Nat, skipTypes (12 :: rest) = .error .unexpectedEndOfGroup) :=
  ⟨skipTypes_deep_groups n h1 h2, skipTypes_unclosed_group n h1 h2,
   skipTypes_end_group_at_zero⟩

theorem c6_group_depth_tracking_witness :
    1 ≤ 65 ∧ 65 < 2 ^ 62 ∧
    (skipTypes (List.replicate 65 11 ++ List.replicate 65 12) = .ok (2 * 65) ∧
      skipTypes (List.replicate 65 11) = .error .unexpectedEOF ∧
      (∀ rest : List Nat, skipTypes (12 :: rest) = .error .unexpectedEndOfGroup)) :=
  ⟨by decide, by decide, c6_group_depth_tracking 65 (by decide) (by decide)⟩

/-- C6 counterexample: 65 nested group-start tags followed by 65 group-end
tags — nesting depth 65, beyond the claimed maximum bound of 64 — are skipped
successfully, so no `TruncatedGroup`-kind error is raised for depth exceeding
the recommended bound. -/
theorem c6_counterexample :
    skipTypes (List.replicate 65 11 ++ List.replicate 65 12) = .ok 130 := by
  decide

/-- C7: a negative `ClaimType` is encoded (tag `0x10`) as the plain varint of
its 64-bit two's-complement pattern `claimTypeBits c` — no zigzag — which is a
10-byte varint (`sovTypes = 10`), and decoding those bytes recovers the
original negative value exactly. -/
theorem c7_negative_claim_type (c : Int) (h1 : -(2 ^ 31) ≤ c) (h2 : c < 0) :
    GenericClaim.Marshal ⟨0, c, none, []⟩ = 16 :: encodeVarintTypes (claimTypeBits c) ∧
    (encodeVarintTypes (claimTypeBits c)).length = 10 ∧
    GenericClaim.decode (16 :: encodeVarintTypes (claimTypeBits c))
      = (⟨0, c, none, []⟩, none) := by
  have hm : GenericClaim.Marshal ⟨0, c, none, []⟩ = 16 :: encodeVarintTypes (claimTypeBits c) := by
    simp [GenericClaim.Marshal, show c ≠ 0 by omega]
  have hbig : 2 ^ 63 ≤ claimTypeBits c := by
    unfold claimTypeBits
    omega
  have hlen10 : (encodeVarintTypes (claimTypeBits c)).length = 10 := by
    rw [encodeVarintTypes_length _ (claimTypeBits_lt c)]
    exact sovTypes_ten _ hbig (claimTypeBits_lt c)
  refine ⟨hm, hlen10, ?_⟩
  have hWF : GenericClaim.WF ⟨0, c, none, []⟩ := by
    refine ⟨by norm_num, h1, show c < 2 ^ 31 by omega, trivial, by norm_num, ?_⟩
    rw [hm]
    simp only [List.length_cons]
    omega
  have h3 := gc_roundTrip ⟨0, c, none, []⟩ hWF (by simp)
  rw [hm] at h3
  exact h3

theorem c7_negative_claim_type_witness :
    (-(2 ^ 31) : Int) ≤ -1 ∧ (-1 : Int) < 0 ∧
    (GenericClaim.Marshal ⟨0, -1, none, []⟩ = 16 :: encodeVarintTypes (claimTypeBits (-1)) ∧
      (encodeVarintTypes (claimTypeBits (-1))).length = 10 ∧
      GenericClaim.decode (16 :: encodeVarintTypes (claimTypeBits (-1)))
        = (⟨0, -1, none, []⟩, none)) :=
  ⟨by decide, by decide, c7_negative_claim_type (-1) (by decide) (by decide)⟩

/-- C8: `BridgeValidator{Power: 300, EthereumAddress: "0xabc"}` encodes to
exactly the ten bytes `08 AC 02 12 05 30 78 61 62 63`, and decoding those ten
bytes reproduces exactly that record with a nil error. -/
theorem c8_concrete_scenario :
    BridgeValidator.Marshal ⟨300, [48, 120, 97, 98, 99]⟩
      = [8, 172, 2, 18, 5, 48, 120, 97, 98, 99] ∧
    BridgeValidator.decode [8, 172, 2, 18, 5, 48, 120, 97, 98, 99]
      = (⟨300, [48, 120, 97, 98, 99]⟩, none) := by
  decide

/-- C9: decode is not atomic with respect to its receiver: on the malformed
buffer `08 AC 02 12 05 30` (complete `Power` field, truncated
`EthereumAddress` payload), `BridgeValidator` decode returns `UnexpectedEnd`
while `Power = 300` — decoded before the error point — remains assigned in the
returned receiver. -/
theorem c9_partial_receiver_on_error :
    BridgeValidator.decode [8, 172, 2, 18, 5, 48]
      = (⟨300, []⟩, some DecodeError.unexpectedEOF) ∧
    (BridgeValidator.decode [8, 172, 2, 18, 5, 48]).1.Power = 300 := by
  decide

/-- C10: when the same scalar field occurs twice on the wire (field 1 at wire
type 0, first carrying `v1` and then `v2`), decode succeeds and the field
holds `v2`: each occurrence resets the accumulator to zero before reading, so
the last occurrence wins.  Holds for `BridgeValidator.Power` and
`GenericClaim.EventNonce` alike. -/
theorem c10_duplicate_field_last_wins (v1 v2 : Nat) (h1 : v1 < 2 ^ 64) (h2 : v2 < 2 ^ 64) :
    BridgeValidator.decode ((8 :: encodeVarintTypes v1) ++ (8 :: encodeVarintTypes v2))
      = (⟨v2, []⟩, none) ∧
    GenericClaim.decode ((8 :: encodeVarintTypes v1) ++ (8 :: encodeVarintTypes v2))
      = (⟨v2, 0, none, []⟩, none) := by
  have hl1 := encLen_le_ten v1 h1
  have hl2 := encLen_le_ten v2 h2
  constructor
  · have hOK : ∀ p ∈ [((8 :: encodeVarintTypes v1),
        (fun r => { r with Power := v1 } : BridgeValidator → BridgeValidator)),
        ((8 :: encodeVarintTypes v2), fun r => { r with Power := v2 })],
        SegOK bvUnmarshalLoop p.1 p.2 := by
      intro p hp
      simp only [List.mem_cons, List.not_mem_nil, or_false] at hp
      rcases hp with rfl | rfl
      · exact bvSeg_Power v1 h1
      · exact bvSeg_Power v2 h2
    have hNE : ∀ p ∈ [((8 :: encodeVarintTypes v1),
        (fun r => { r with Power := v1 } : BridgeValidator → BridgeValidator)),
        ((8 :: encodeVarintTypes v2), fun r => { r with Power := v2 })], p.1 ≠ [] := by
      intro p hp
      simp only [List.mem_cons, List.not_mem_nil, or_false] at hp
      rcases hp with rfl | rfl <;> simp
    have hlen : ((8 :: encodeVarintTypes v1) ++ (8 :: encodeVarintTypes v2)).length < 2 ^ 63 := by
      simp only [List.length_append, List.length_cons]
      omega
    have hrun := runSegs bvLoop_exit _ hOK hNE
      ((8 :: encodeVarintTypes v1) ++ (8 :: encodeVarintTypes v2)) 0
      (((8 :: encodeVarintTypes v1) ++ (8 :: encodeVarintTypes v2)).length + 1) ⟨0, []⟩ hlen
      (by simp [catList]) (by simp [catList]) (by simp [catList])
    unfold BridgeValidator.decode BridgeValidator.Unmarshal
    rw [hrun]
    rfl
  · have hOK : ∀ p ∈ [((8 :: encodeVarintTypes v1),
        (fun r => { r with EventNonce := v1 } : GenericClaim → GenericClaim)),
        ((8 :: encodeVarintTypes v2), fun r => { r with EventNonce := v2 })],
        SegOK gcUnmarshalLoop p.1 p.2 := by
      intro p hp
      simp only [List.mem_cons, List.not_mem_nil, or_false] at hp
      rcases hp with rfl | rfl
      · exact gcSeg_EventNonce v1 h1
      · exact gcSeg_EventNonce v2 h2
    have hNE : ∀ p ∈ [((8 :: encodeVarintTypes v1),
        (fun r => { r with EventNonce := v1 } : GenericClaim → GenericClaim)),
        ((8 :: encodeVarintTypes v2), fun r => { r with EventNonce := v2 })], p.1 ≠ [] := by
      intro p hp
      simp only [List.mem_cons, List.not_mem_nil, or_false] at hp
      rcases hp with rfl | rfl <;> simp
    have hlen : ((8 :: encodeVarintTypes v1) ++ (8 :: encodeVarintTypes v2)).length < 2 ^ 63 := by
      simp only [List.length_append, List.length_cons]
      omega
    have hrun := runSegs gcLoop_exit _ hOK hNE
      ((8 :: encodeVarintTypes v1) ++ (8 :: encodeVarintTypes v2)) 0
      (((8 :: encodeVarintTypes v1) ++ (8 :: encodeVarintTypes v2)).length + 1) ⟨0, 0, none, []⟩
      hlen (by simp [catList]) (by simp [catList]) (by simp [catList])
    unfold GenericClaim.decode GenericClaim.Unmarshal
    rw [hrun]
    rfl

theorem c10_duplicate_field_last_wins_witness :
    1 < 2 ^ 64 ∧ 5 < 2 ^ 64 ∧
    (BridgeValidator.decode ((8 :: encodeVarintTypes 1) ++ (8 :: encodeVarintTypes 5))
        = (⟨5, []⟩, none) ∧
      GenericClaim.decode ((8 :: encodeVarintTypes 1) ++ (8 :: encodeVarintTypes 5))
        = (⟨5, 0, none, []⟩, none)) :=
  ⟨by decide, by decide, c10_duplicate_field_last_wins 1 5 (by decide) (by decide)⟩

theorem c5_hash_empty_substitution_witness :
    ([7, 9] : List Nat).length < 2 ^ 62 ∧
    GenericClaim.decode (26 :: (encodeVarintTypes ([7, 9] : List Nat).length ++ [7, 9]))
      = (⟨0, 0, some [7, 9], []⟩, none) :=
  ⟨by decide, c5_hash_empty_substitution.1 [7, 9] (by decide)⟩
